import Mathlib

set_option maxHeartbeats 1000000

namespace Rtk

/-!  Verification of the rtk Tracking & Analytics Engine (`src/tracking.rs`).

The persistent store is a SQLite table; we embed it as a list of rows, in
insertion (rowid) order.  SQLite compares TEXT values by `memcmp` over their
UTF-8 bytes; every string this module ever compares (RFC3339 timestamps and
their date prefixes) is plain ASCII, so we model stored text as `List Char`
and compare character codes, which agrees with the byte order on ASCII. -/

/-- SQLite's TEXT collation (BINARY): lexicographic comparison of the byte
sequences, a proper prefix sorting first. -/
def lexCmp : List Char → List Char → Ordering
  | [], [] => .eq
  | [], _ :: _ => .lt
  | _ :: _, [] => .gt
  | a :: as, b :: bs => if a < b then .lt else if b < a then .gt else lexCmp as bs

/-- `s < t` in SQLite's BINARY TEXT order (the order used by
`timestamp < ?1` in `cleanup_old` and by `ORDER BY` on date keys). -/
def textLt (s t : List Char) : Bool := lexCmp s t == .lt

theorem lexCmp_eq_iff (s t : List Char) : lexCmp s t = .eq ↔ s = t := by
  induction s generalizing t with
  | nil => cases t <;> simp [lexCmp]
  | cons a as ih =>
    cases t with
    | nil => simp [lexCmp]
    | cons b bs =>
      by_cases hab : a < b
      · simp only [lexCmp, if_pos hab]
        constructor
        · intro h; cases h
        · rintro ⟨rfl, rfl⟩; exact absurd hab (lt_irrefl a)
      · by_cases hba : b < a
        · simp only [lexCmp, if_neg hab, if_pos hba]
          constructor
          · intro h; cases h
          · rintro ⟨rfl, rfl⟩; exact absurd hba (lt_irrefl a)
        · have : a = b := le_antisymm (not_lt.mp hba) (not_lt.mp hab)
          subst this
          simp [lexCmp, ih]

theorem lexCmp_refl (s : List Char) : lexCmp s s = .eq :=
  (lexCmp_eq_iff s s).mpr rfl

theorem lexCmp_gt_iff_lt (s t : List Char) : lexCmp s t = .gt ↔ lexCmp t s = .lt := by
  induction s generalizing t with
  | nil => cases t <;> simp [lexCmp]
  | cons a as ih =>
    cases t with
    | nil => simp [lexCmp]
    | cons b bs =>
      by_cases hab : a < b
      · have : ¬ b < a := lt_asymm hab
        simp [lexCmp, hab, this]
      · by_cases hba : b < a
        · simp [lexCmp, hab, hba]
        · simp [lexCmp, hab, hba, ih]

theorem lexCmp_lt_trans {s t u : List Char} (h₁ : lexCmp s t = .lt)
    (h₂ : lexCmp t u = .lt) : lexCmp s u = .lt := by
  induction s generalizing t u with
  | nil =>
    cases u with
    | nil =>
      cases t with
      | nil => exact h₂
      | cons b bs => simp [lexCmp] at h₂
    | cons c cs => simp [lexCmp]
  | cons a as ih =>
    cases t with
    | nil => simp [lexCmp] at h₁
    | cons b bs =>
      cases u with
      | nil => simp [lexCmp] at h₂
      | cons c cs =>
        by_cases hab : a < b
        · by_cases hbc : b < c
          · have hac : a < c := lt_trans hab hbc
            simp [lexCmp, hac]
          · by_cases hcb : c < b
            · simp [lexCmp, hbc, hcb] at h₂
            · have : b = c := le_antisymm (not_lt.mp hcb) (not_lt.mp hbc)
              subst this
              simp [lexCmp, hab]
        · by_cases hba : b < a
          · simp [lexCmp, hab, hba] at h₁
          · have : a = b := le_antisymm (not_lt.mp hba) (not_lt.mp hab)
            subst this
            simp only [lexCmp, if_neg hab, if_neg hba] at h₁
            by_cases hbc : a < c
            · simp [lexCmp, hbc]
            · by_cases hcb : c < a
              · simp [lexCmp, hbc, hcb] at h₂
              · have : a = c := le_antisymm (not_lt.mp hcb) (not_lt.mp hbc)
                subst this
                simp only [lexCmp, if_neg hbc, if_neg hcb] at h₂ ⊢
                exact ih h₁ h₂

theorem lexCmp_append_congr {a b : List Char} (u v : List Char)
    (h : a.length = b.length) :
    lexCmp (a ++ u) (b ++ v) = (lexCmp a b).then (lexCmp u v) := by
  induction a generalizing b with
  | nil =>
    cases b with
    | nil => simp [lexCmp, Ordering.then]
    | cons x xs => simp at h
  | cons x xs ih =>
    cases b with
    | nil => simp at h
    | cons y ys =>
      simp only [List.length_cons, Nat.succ.injEq] at h
      by_cases hxy : x < y
      · simp [lexCmp, hxy, Ordering.then]
      · by_cases hyx : y < x
        · simp [lexCmp, hxy, hyx, Ordering.then]
        · simp only [List.cons_append, lexCmp, if_neg hxy, if_neg hyx]
          exact ih h

/-! Decimal rendering of zero-padded fixed-width fields, as chrono's
formatter emits them ('%04Y', '%02m', ...). -/

/-- The ASCII digit for `n < 10`. -/
def digChar (n : Nat) : Char := Char.ofNat (48 + n)

/-- `n` written in decimal, zero-padded to exactly `k` digits
(the low-order `k` digits of `n`). -/
def padDigits : Nat → Nat → List Char
  | 0, _ => []
  | k + 1, n => padDigits k (n / 10) ++ [digChar (n % 10)]

theorem padDigits_length (k n : Nat) : (padDigits k n).length = k := by
  induction k generalizing n with
  | zero => rfl
  | succ k ih => simp [padDigits, ih]

theorem digChar_lt_iff : ∀ a < 10, ∀ b < 10, (digChar a < digChar b ↔ a < b) := by
  decide

theorem digChar_eq_iff : ∀ a < 10, ∀ b < 10, (digChar a = digChar b ↔ a = b) := by
  decide

theorem plus_lt_digChar : ∀ a < 10, '+' < digChar a := by decide

theorem mem_padDigits_ge (k n : Nat) : ∀ c ∈ padDigits k n, '+' < c := by
  induction k generalizing n with
  | zero => intro c hc; simp [padDigits] at hc
  | succ k ih =>
    intro c hc
    simp only [padDigits, List.mem_append, List.mem_singleton] at hc
    rcases hc with hc | rfl
    · exact ih _ c hc
    · exact plus_lt_digChar _ (Nat.mod_lt _ (by norm_num))

theorem padDigits_cmp (k : Nat) :
    ∀ m < 10 ^ k, ∀ n < 10 ^ k,
      (lexCmp (padDigits k m) (padDigits k n) = .lt ↔ m < n) ∧
      (lexCmp (padDigits k m) (padDigits k n) = .eq ↔ m = n) := by
  induction k with
  | zero =>
    intro m hm n hn
    interval_cases m
    interval_cases n
    simp [padDigits, lexCmp]
  | succ k ih =>
    intro m hm n hn
    have hm' : m / 10 < 10 ^ k := by
      rw [Nat.div_lt_iff_lt_mul (by norm_num)]
      calc m < 10 ^ (k + 1) := hm
        _ = 10 ^ k * 10 := by ring
    have hn' : n / 10 < 10 ^ k := by
      rw [Nat.div_lt_iff_lt_mul (by norm_num)]
      calc n < 10 ^ (k + 1) := hn
        _ = 10 ^ k * 10 := by ring
    have hsplit := lexCmp_append_congr (a := padDigits k (m / 10))
      (b := padDigits k (n / 10)) [digChar (m % 10)] [digChar (n % 10)]
      (by rw [padDigits_length, padDigits_length])
    have ihm := ih (m / 10) hm' (n / 10) hn'
    have hdig_lt : lexCmp [digChar (m % 10)] [digChar (n % 10)] = .lt ↔ m % 10 < n % 10 := by
      by_cases h : digChar (m % 10) < digChar (n % 10)
      · simp only [lexCmp, if_pos h, true_iff]
        exact (digChar_lt_iff _ (Nat.mod_lt _ (by norm_num)) _
          (Nat.mod_lt _ (by norm_num))).mp h
      · have h2 : ¬ m % 10 < n % 10 := fun hlt => h ((digChar_lt_iff _
          (Nat.mod_lt _ (by norm_num)) _ (Nat.mod_lt _ (by norm_num))).mpr hlt)
        simp only [lexCmp, if_neg h]
        by_cases h3 : digChar (n % 10) < digChar (m % 10) <;> simp [h3, h2]
    have hdig_eq : lexCmp [digChar (m % 10)] [digChar (n % 10)] = .eq ↔ m % 10 = n % 10 := by
      by_cases h : digChar (m % 10) < digChar (n % 10)
      · have : m % 10 < n % 10 := (digChar_lt_iff _ (Nat.mod_lt _ (by norm_num)) _
          (Nat.mod_lt _ (by norm_num))).mp h
        simp only [lexCmp, if_pos h]
        constructor
        · intro hc; cases hc
        · intro he; omega
      · by_cases h3 : digChar (n % 10) < digChar (m % 10)
        · have : n % 10 < m % 10 := (digChar_lt_iff _ (Nat.mod_lt _ (by norm_num)) _
            (Nat.mod_lt _ (by norm_num))).mp h3
          simp only [lexCmp, if_neg h, if_pos h3]
          constructor
          · intro hc; cases hc
          · intro he; omega
        · have : digChar (m % 10) = digChar (n % 10) :=
            le_antisymm (not_lt.mp h3) (not_lt.mp h)
          have heq : m % 10 = n % 10 := (digChar_eq_iff _ (Nat.mod_lt _ (by norm_num)) _
            (Nat.mod_lt _ (by norm_num))).mp this
          simp [lexCmp, h, h3, heq]
    constructor
    · rw [padDigits, padDigits, hsplit]
      rcases ht : lexCmp (padDigits k (m / 10)) (padDigits k (n / 10)) with _ | _ | _
      · have : m / 10 < n / 10 := ihm.1.mp ht
        simp only [Ordering.then, true_iff]
        omega
      · have : m / 10 = n / 10 := ihm.2.mp ht
        simp only [Ordering.then, hdig_lt]
        omega
      · have hng : ¬ m / 10 < n / 10 := fun hlt => by
          rw [ihm.1.mpr hlt] at ht; cases ht
        have hne : ¬ m / 10 = n / 10 := fun heq => by
          rw [ihm.2.mpr heq] at ht; cases ht
        simp only [Ordering.then]
        constructor
        · intro hc; cases hc
        · intro hlt
          exfalso
          omega
    · rw [padDigits, padDigits, hsplit]
      rcases ht : lexCmp (padDigits k (m / 10)) (padDigits k (n / 10)) with _ | _ | _
      · have : m / 10 < n / 10 := ihm.1.mp ht
        simp only [Ordering.then]
        constructor
        · intro hc; cases hc
        · intro he; omega
      · have : m / 10 = n / 10 := ihm.2.mp ht
        simp only [Ordering.then, hdig_eq]
        omega
      · have hng : ¬ m / 10 < n / 10 := fun hlt => by
          rw [ihm.1.mpr hlt] at ht; cases ht
        have hne : ¬ m / 10 = n / 10 := fun heq => by
          rw [ihm.2.mpr heq] at ht; cases ht
        simp only [Ordering.then]
        constructor
        · intro hc; cases hc
        · intro he; omega

theorem padDigits_split (j k n : Nat) :
    padDigits (j + k) n = padDigits j (n / 10 ^ k) ++ padDigits k (n % 10 ^ k) := by
  induction k generalizing n with
  | zero => simp [padDigits]
  | succ k ih =>
    have h1 : n / 10 / 10 ^ k = n / 10 ^ (k + 1) := by
      rw [Nat.div_div_eq_div_mul, pow_succ, mul_comm (10 ^ k) 10]
    have h2 : n / 10 % 10 ^ k = n % 10 ^ (k + 1) / 10 := by
      rw [Nat.div_mod_eq_mod_mul_div, pow_succ, mul_comm (10 ^ k) 10]
    have h3 : n % 10 ^ (k + 1) % 10 = n % 10 := by
      exact Nat.mod_mod_of_dvd n (dvd_pow_self 10 (Nat.succ_ne_zero k))
    calc padDigits (j + (k + 1)) n
        = padDigits (j + k) (n / 10) ++ [digChar (n % 10)] := rfl
      _ = padDigits j (n / 10 / 10 ^ k) ++ padDigits k (n / 10 % 10 ^ k)
            ++ [digChar (n % 10)] := by rw [ih, List.append_assoc]
      _ = padDigits j (n / 10 ^ (k + 1)) ++ (padDigits k (n % 10 ^ (k + 1) / 10)
            ++ [digChar (n % 10 ^ (k + 1) % 10)]) := by
            rw [h1, h2, h3, List.append_assoc]
      _ = padDigits j (n / 10 ^ (k + 1)) ++ padDigits k.succ (n % 10 ^ (k + 1)) := rfl

theorem lexCmp_cons_same (c : Char) (u v : List Char) :
    lexCmp (c :: u) (c :: v) = lexCmp u v := by
  simp [lexCmp]

theorem lexCmp_head_lt {a b : Char} (h : a < b) (u v : List Char) :
    lexCmp (a :: u) (b :: v) = .lt := by
  simp [lexCmp, h]

theorem Ordering.then_eq_right (o : Ordering) : o.then .eq = o := by
  cases o <;> rfl

theorem Ordering.lt_then (o : Ordering) : Ordering.lt.then o = .lt := rfl

theorem Ordering.gt_then (o : Ordering) : Ordering.gt.then o = .gt := rfl

theorem Ordering.eq_then (o : Ordering) : Ordering.eq.then o = o := rfl

/-- Mixed-radix step: a high-order field dominates any in-range low-order key. -/
theorem mixed_radix_lt {a b ka kb M : Nat} (hab : a < b) (hka : ka < M) :
    a * M + ka < b * M + kb := by
  calc a * M + ka < a * M + M := by omega
    _ = (a + 1) * M := by ring
    _ ≤ b * M := Nat.mul_le_mul_right M (by omega)
    _ ≤ b * M + kb := by omega

/-- Composing a field comparison with the comparison of the remaining
fields tracks the mixed-radix numeric key. -/
theorem then_key {o1 o2 : Ordering} {a b ka kb M : Nat}
    (h1lt : o1 = .lt ↔ a < b) (h1eq : o1 = .eq ↔ a = b)
    (h2lt : o2 = .lt ↔ ka < kb) (h2eq : o2 = .eq ↔ ka = kb)
    (hka : ka < M) (hkb : kb < M) :
    (o1.then o2 = .lt ↔ a * M + ka < b * M + kb) ∧
    (o1.then o2 = .eq ↔ a * M + ka = b * M + kb) := by
  rcases ho1 : o1 with _ | _ | _
  · have hab : a < b := h1lt.mp ho1
    have hlt : a * M + ka < b * M + kb := mixed_radix_lt hab hka
    rw [Ordering.lt_then]
    refine ⟨⟨fun _ => hlt, fun _ => rfl⟩, ?_, ?_⟩
    · intro h; cases h
    · intro h; omega
  · have hab : a = b := h1eq.mp ho1
    subst hab
    rw [Ordering.eq_then]
    refine ⟨?_, ?_⟩
    · rw [h2lt]; omega
    · rw [h2eq]; omega
  · have hne : ¬ a < b := fun h => by rw [h1lt.mpr h] at ho1; cases ho1
    have hne2 : ¬ a = b := fun h => by rw [h1eq.mpr h] at ho1; cases ho1
    have hba : b < a := by omega
    have hgt : b * M + kb < a * M + ka := mixed_radix_lt hba hkb
    rw [Ordering.gt_then]
    refine ⟨⟨?_, ?_⟩, ?_, ?_⟩
    · intro h; cases h
    · intro h; omega
    · intro h; cases h
    · intro h; omega

/-! ## The stored timestamp encoding

`Tracker::record` stores `Utc::now().to_rfc3339()` and `cleanup_old`
compares stored strings against `(now - 90 days).to_rfc3339()` using
SQLite's TEXT order.  chrono's `to_rfc3339` on a `DateTime<Utc>` emits
`YYYY-MM-DDTHH:MM:SS[.fff[fff[fff]]]+00:00`: the date/time fields are
zero-padded to fixed width, the fractional seconds use the minimal one of
0, 3, 6 or 9 digits (`SecondsFormat::AutoSi`), and the year keeps 4 digits
for 0..=9999 but gains an explicit `+` sign beyond that (we model years up
to 99999, the 5-digit signed regime). -/

/-- A UTC instant, as chrono decomposes it for formatting. -/
structure Instant where
  year : Nat
  month : Nat
  day : Nat
  hour : Nat
  minute : Nat
  second : Nat
  nano : Nat
deriving DecidableEq, Repr

/-- Field ranges of instants the program can actually store: calendar
dates of the four-digit-year era, no leap-second representation. -/
def Instant.Valid (t : Instant) : Prop :=
  t.year ≤ 9999 ∧ 1 ≤ t.month ∧ t.month ≤ 12 ∧ 1 ≤ t.day ∧ t.day ≤ 31 ∧
    t.hour ≤ 23 ∧ t.minute ≤ 59 ∧ t.second ≤ 59 ∧ t.nano < 10 ^ 9

instance (t : Instant) : Decidable t.Valid := by
  unfold Instant.Valid; infer_instance

/-- Nanoseconds per second. -/
def NS : Nat := 10 ^ 9
def M5 : Nat := 60 * NS
def M4 : Nat := 60 * M5
def M3 : Nat := 24 * M4
def M2 : Nat := 32 * M3
def M1 : Nat := 13 * M2

/-- Mixed-radix chronological key of an instant: `t1` is chronologically
before `t2` iff `instantKey t1 < instantKey t2` (for valid instants). -/
def key5 (t : Instant) : Nat := t.second * NS + t.nano
def key4 (t : Instant) : Nat := t.minute * M5 + key5 t
def key3 (t : Instant) : Nat := t.hour * M4 + key4 t
def key2 (t : Instant) : Nat := t.day * M3 + key3 t
def key1 (t : Instant) : Nat := t.month * M2 + key2 t
def instantKey (t : Instant) : Nat := t.year * M1 + key1 t

/-- Fractional-second part of chrono's RFC3339 output (`SecondsFormat::AutoSi`):
empty when zero, else a dot and the minimal of 3, 6 or 9 digits. -/
def fracChars (n : Nat) : List Char :=
  if n = 0 then []
  else if n % 1000000 = 0 then '.' :: padDigits 3 (n / 1000000)
  else if n % 1000 = 0 then '.' :: padDigits 6 (n / 1000)
  else '.' :: padDigits 9 n

/-- The UTC offset suffix chrono emits for `DateTime<Utc>`: "+00:00". -/
def offsetChars : List Char := ['+', '0', '0', ':', '0', '0']

/-- Fraction plus offset: everything after the seconds field. -/
def fracSuffix (n : Nat) : List Char := fracChars n ++ offsetChars

/-- chrono's year field: 4 digits zero-padded for years 0..=9999, an
explicit sign and the plain digits beyond (modelled for years ≤ 99999). -/
def yearChars (y : Nat) : List Char :=
  if y < 10000 then padDigits 4 y else '+' :: padDigits 5 y

def encTail5 (t : Instant) : List Char := padDigits 2 t.second ++ fracSuffix t.nano
def encTail4 (t : Instant) : List Char := padDigits 2 t.minute ++ ':' :: encTail5 t
def encTail3 (t : Instant) : List Char := padDigits 2 t.hour ++ ':' :: encTail4 t
def encTail2 (t : Instant) : List Char := padDigits 2 t.day ++ 'T' :: encTail3 t
def encTail1 (t : Instant) : List Char := padDigits 2 t.month ++ '-' :: encTail2 t

/-- The stored timestamp: `DateTime::<Utc>::to_rfc3339` of the instant. -/
def encodeRfc3339 (t : Instant) : List Char := yearChars t.year ++ '-' :: encTail1 t

theorem lexCmp_head_gt {a b : Char} (h : b < a) (u v : List Char) :
    lexCmp (a :: u) (b :: v) = .gt := by
  have : ¬ a < b := lt_asymm h
  simp [lexCmp, this, h]

/-- Transport a comparison characterisation through argument swap. -/
theorem cmp_iff_swap {s t : List Char} {m n : Nat}
    (hlt : lexCmp t s = .lt ↔ n < m) (heq : lexCmp t s = .eq ↔ n = m) :
    (lexCmp s t = .lt ↔ m < n) ∧ (lexCmp s t = .eq ↔ m = n) := by
  have hgt : lexCmp s t = .gt ↔ n < m := by rw [lexCmp_gt_iff_lt]; exact hlt
  have heq2 : lexCmp s t = .eq ↔ m = n := by
    rw [lexCmp_eq_iff]
    rw [lexCmp_eq_iff] at heq
    constructor
    · intro h; exact (heq.mp h.symm).symm
    · intro h; exact (heq.mpr h.symm).symm
  refine ⟨?_, heq2⟩
  rcases h : lexCmp s t with _ | _ | _
  · have h1 : ¬ n < m := fun hh => by rw [hgt.mpr hh] at h; cases h
    have h2 : ¬ m = n := fun hh => by rw [heq2.mpr hh] at h; cases h
    constructor
    · intro _; omega
    · intro _; rfl
  · have h2 : m = n := heq2.mp h
    constructor
    · intro hh; cases hh
    · intro hh; omega
  · have h1 : n < m := hgt.mp h
    constructor
    · intro hh; cases hh
    · intro hh; omega

/-- A zero-padded field followed by the offset sorts before the same-width
field followed by more digits, exactly when the field values are `≤`;
the two can never compare equal. -/
theorem lexCmp_pad_trunc {j k a c d : Nat} (ha : a < 10 ^ j) (hc : c < 10 ^ j)
    (hk : 0 < k) :
    (lexCmp (padDigits j a ++ offsetChars)
        (padDigits j c ++ (padDigits k d ++ offsetChars)) = .lt ↔ a ≤ c) ∧
    (lexCmp (padDigits j a ++ offsetChars)
        (padDigits j c ++ (padDigits k d ++ offsetChars)) = .eq ↔ False) := by
  have hsplit := lexCmp_append_congr (a := padDigits j a) (b := padDigits j c)
    offsetChars (padDigits k d ++ offsetChars)
    (by rw [padDigits_length, padDigits_length])
  have hsecond : lexCmp offsetChars (padDigits k d ++ offsetChars) = .lt := by
    cases hpk : padDigits k d with
    | nil =>
      exfalso
      have := padDigits_length k d
      rw [hpk] at this
      simp at this
      omega
    | cons c0 cs =>
      have hc0 : '+' < c0 := mem_padDigits_ge k d c0 (by rw [hpk]; exact List.mem_cons_self _ _)
      rw [List.cons_append]
      exact lexCmp_head_lt hc0 _ _
  rw [hsplit, hsecond]
  have hpc := padDigits_cmp j a ha c hc
  rcases hp : lexCmp (padDigits j a) (padDigits j c) with _ | _ | _
  · have : a < c := (hpc.1).mp hp
    rw [Ordering.lt_then]
    constructor
    · constructor
      · intro _; omega
      · intro _; rfl
    · constructor
      · intro h; cases h
      · intro h; cases h
  · have : a = c := (hpc.2).mp hp
    rw [Ordering.eq_then]
    constructor
    · constructor
      · intro _; omega
      · intro _; rfl
    · constructor
      · intro h; cases h
      · intro h; cases h
  · have h1 : ¬ a < c := fun hh => by rw [hpc.1.mpr hh] at hp; cases hp
    have h2 : ¬ a = c := fun hh => by rw [hpc.2.mpr hh] at hp; cases hp
    rw [Ordering.gt_then]
    constructor
    · constructor
      · intro h; cases h
      · intro h; omega
    · constructor
      · intro h; cases h
      · intro h; cases h

theorem fracChars_of_ne {n : Nat} (hn : n ≠ 0) : ∃ tl, fracChars n = '.' :: tl := by
  unfold fracChars
  rw [if_neg hn]
  split_ifs <;> exact ⟨_, rfl⟩

theorem padDigits6_eq (x : Nat) :
    padDigits 6 x = padDigits 3 (x / 1000) ++ padDigits 3 (x % 1000) := by
  have h := padDigits_split 3 3 x
  norm_num at h
  exact h

theorem padDigits9_eq3 (x : Nat) :
    padDigits 9 x = padDigits 3 (x / 1000000) ++ padDigits 6 (x % 1000000) := by
  have h := padDigits_split 3 6 x
  norm_num at h
  exact h

theorem padDigits9_eq6 (x : Nat) :
    padDigits 9 x = padDigits 6 (x / 1000) ++ padDigits 3 (x % 1000) := by
  have h := padDigits_split 6 3 x
  norm_num at h
  exact h

theorem frac_cmp_33 {n1 n2 : Nat} (h1 : n1 ≠ 0) (h2 : n2 ≠ 0)
    (hm1 : n1 % 1000000 = 0) (hm2 : n2 % 1000000 = 0)
    (hb1 : n1 < 10 ^ 9) (hb2 : n2 < 10 ^ 9) :
    (lexCmp (fracSuffix n1) (fracSuffix n2) = .lt ↔ n1 < n2) ∧
    (lexCmp (fracSuffix n1) (fracSuffix n2) = .eq ↔ n1 = n2) := by
  rw [show (10 : Nat) ^ 9 = 1000000000 by norm_num] at hb1 hb2
  have e1 : fracSuffix n1 = '.' :: (padDigits 3 (n1 / 1000000) ++ offsetChars) := by
    unfold fracSuffix fracChars
    rw [if_neg h1, if_pos hm1, List.cons_append]
  have e2 : fracSuffix n2 = '.' :: (padDigits 3 (n2 / 1000000) ++ offsetChars) := by
    unfold fracSuffix fracChars
    rw [if_neg h2, if_pos hm2, List.cons_append]
  rw [e1, e2, lexCmp_cons_same]
  rw [lexCmp_append_congr _ _ (by rw [padDigits_length, padDigits_length]),
    lexCmp_refl, Ordering.then_eq_right]
  have hd1 : n1 / 1000000 < 10 ^ 3 := by
    rw [show (10 : Nat) ^ 3 = 1000 by norm_num]; omega
  have hd2 : n2 / 1000000 < 10 ^ 3 := by
    rw [show (10 : Nat) ^ 3 = 1000 by norm_num]; omega
  have hpc := padDigits_cmp 3 _ hd1 _ hd2
  constructor
  · rw [hpc.1]; omega
  · rw [hpc.2]; omega

theorem frac_cmp_66 {n1 n2 : Nat} (h1 : n1 ≠ 0) (h2 : n2 ≠ 0)
    (hm1 : ¬ n1 % 1000000 = 0) (hk1 : n1 % 1000 = 0)
    (hm2 : ¬ n2 % 1000000 = 0) (hk2 : n2 % 1000 = 0)
    (hb1 : n1 < 10 ^ 9) (hb2 : n2 < 10 ^ 9) :
    (lexCmp (fracSuffix n1) (fracSuffix n2) = .lt ↔ n1 < n2) ∧
    (lexCmp (fracSuffix n1) (fracSuffix n2) = .eq ↔ n1 = n2) := by
  rw [show (10 : Nat) ^ 9 = 1000000000 by norm_num] at hb1 hb2
  have e1 : fracSuffix n1 = '.' :: (padDigits 6 (n1 / 1000) ++ offsetChars) := by
    unfold fracSuffix fracChars
    rw [if_neg h1, if_neg hm1, if_pos hk1, List.cons_append]
  have e2 : fracSuffix n2 = '.' :: (padDigits 6 (n2 / 1000) ++ offsetChars) := by
    unfold fracSuffix fracChars
    rw [if_neg h2, if_neg hm2, if_pos hk2, List.cons_append]
  rw [e1, e2, lexCmp_cons_same]
  rw [lexCmp_append_congr _ _ (by rw [padDigits_length, padDigits_length]),
    lexCmp_refl, Ordering.then_eq_right]
  have hd1 : n1 / 1000 < 10 ^ 6 := by
    rw [show (10 : Nat) ^ 6 = 1000000 by norm_num]; omega
  have hd2 : n2 / 1000 < 10 ^ 6 := by
    rw [show (10 : Nat) ^ 6 = 1000000 by norm_num]; omega
  have hpc := padDigits_cmp 6 _ hd1 _ hd2
  constructor
  · rw [hpc.1]; omega
  · rw [hpc.2]; omega

theorem frac_cmp_99 {n1 n2 : Nat} (h1 : n1 ≠ 0) (h2 : n2 ≠ 0)
    (hm1 : ¬ n1 % 1000000 = 0) (hk1 : ¬ n1 % 1000 = 0)
    (hm2 : ¬ n2 % 1000000 = 0) (hk2 : ¬ n2 % 1000 = 0)
    (hb1 : n1 < 10 ^ 9) (hb2 : n2 < 10 ^ 9) :
    (lexCmp (fracSuffix n1) (fracSuffix n2) = .lt ↔ n1 < n2) ∧
    (lexCmp (fracSuffix n1) (fracSuffix n2) = .eq ↔ n1 = n2) := by
  have e1 : fracSuffix n1 = '.' :: (padDigits 9 n1 ++ offsetChars) := by
    unfold fracSuffix fracChars
    rw [if_neg h1, if_neg hm1, if_neg hk1, List.cons_append]
  have e2 : fracSuffix n2 = '.' :: (padDigits 9 n2 ++ offsetChars) := by
    unfold fracSuffix fracChars
    rw [if_neg h2, if_neg hm2, if_neg hk2, List.cons_append]
  rw [e1, e2, lexCmp_cons_same]
  rw [lexCmp_append_congr _ _ (by rw [padDigits_length, padDigits_length]),
    lexCmp_refl, Ordering.then_eq_right]
  exact padDigits_cmp 9 _ hb1 _ hb2

theorem frac_cmp_36 {n1 n2 : Nat} (h1 : n1 ≠ 0) (h2 : n2 ≠ 0)
    (hm1 : n1 % 1000000 = 0)
    (hm2 : ¬ n2 % 1000000 = 0) (hk2 : n2 % 1000 = 0)
    (hb1 : n1 < 10 ^ 9) (hb2 : n2 < 10 ^ 9) :
    (lexCmp (fracSuffix n1) (fracSuffix n2) = .lt ↔ n1 < n2) ∧
    (lexCmp (fracSuffix n1) (fracSuffix n2) = .eq ↔ n1 = n2) := by
  rw [show (10 : Nat) ^ 9 = 1000000000 by norm_num] at hb1 hb2
  have e1 : fracSuffix n1 = '.' :: (padDigits 3 (n1 / 1000000) ++ offsetChars) := by
    unfold fracSuffix fracChars
    rw [if_neg h1, if_pos hm1, List.cons_append]
  have e2 : fracSuffix n2 = '.' :: (padDigits 3 (n2 / 1000000)
      ++ (padDigits 3 (n2 / 1000 % 1000) ++ offsetChars)) := by
    unfold fracSuffix fracChars
    rw [if_neg h2, if_neg hm2, if_pos hk2, List.cons_append, padDigits6_eq,
      List.append_assoc, Nat.div_div_eq_div_mul]
  rw [e1, e2, lexCmp_cons_same]
  have hd1 : n1 / 1000000 < 10 ^ 3 := by
    rw [show (10 : Nat) ^ 3 = 1000 by norm_num]; omega
  have hd2 : n2 / 1000000 < 10 ^ 3 := by
    rw [show (10 : Nat) ^ 3 = 1000 by norm_num]; omega
  have htr := lexCmp_pad_trunc (d := n2 / 1000 % 1000) hd1 hd2 (by norm_num : (0:Nat) < 3)
  constructor
  · rw [htr.1]; omega
  · rw [htr.2]
    constructor
    · intro h; cases h
    · intro h; omega

theorem frac_cmp_39 {n1 n2 : Nat} (h1 : n1 ≠ 0) (h2 : n2 ≠ 0)
    (hm1 : n1 % 1000000 = 0)
    (hm2 : ¬ n2 % 1000000 = 0) (hk2 : ¬ n2 % 1000 = 0)
    (hb1 : n1 < 10 ^ 9) (hb2 : n2 < 10 ^ 9) :
    (lexCmp (fracSuffix n1) (fracSuffix n2) = .lt ↔ n1 < n2) ∧
    (lexCmp (fracSuffix n1) (fracSuffix n2) = .eq ↔ n1 = n2) := by
  rw [show (10 : Nat) ^ 9 = 1000000000 by norm_num] at hb1 hb2
  have e1 : fracSuffix n1 = '.' :: (padDigits 3 (n1 / 1000000) ++ offsetChars) := by
    unfold fracSuffix fracChars
    rw [if_neg h1, if_pos hm1, List.cons_append]
  have e2 : fracSuffix n2 = '.' :: (padDigits 3 (n2 / 1000000)
      ++ (padDigits 6 (n2 % 1000000) ++ offsetChars)) := by
    unfold fracSuffix fracChars
    rw [if_neg h2, if_neg hm2, if_neg hk2, List.cons_append, padDigits9_eq3,
      List.append_assoc]
  rw [e1, e2, lexCmp_cons_same]
  have hd1 : n1 / 1000000 < 10 ^ 3 := by
    rw [show (10 : Nat) ^ 3 = 1000 by norm_num]; omega
  have hd2 : n2 / 1000000 < 10 ^ 3 := by
    rw [show (10 : Nat) ^ 3 = 1000 by norm_num]; omega
  have htr := lexCmp_pad_trunc (d := n2 % 1000000) hd1 hd2 (by norm_num : (0:Nat) < 6)
  constructor
  · rw [htr.1]; omega
  · rw [htr.2]
    constructor
    · intro h; cases h
    · intro h; omega

theorem frac_cmp_69 {n1 n2 : Nat} (h1 : n1 ≠ 0) (h2 : n2 ≠ 0)
    (hm1 : ¬ n1 % 1000000 = 0) (hk1 : n1 % 1000 = 0)
    (hm2 : ¬ n2 % 1000000 = 0) (hk2 : ¬ n2 % 1000 = 0)
    (hb1 : n1 < 10 ^ 9) (hb2 : n2 < 10 ^ 9) :
    (lexCmp (fracSuffix n1) (fracSuffix n2) = .lt ↔ n1 < n2) ∧
    (lexCmp (fracSuffix n1) (fracSuffix n2) = .eq ↔ n1 = n2) := by
  rw [show (10 : Nat) ^ 9 = 1000000000 by norm_num] at hb1 hb2
  have e1 : fracSuffix n1 = '.' :: (padDigits 6 (n1 / 1000) ++ offsetChars) := by
    unfold fracSuffix fracChars
    rw [if_neg h1, if_neg hm1, if_pos hk1, List.cons_append]
  have e2 : fracSuffix n2 = '.' :: (padDigits 6 (n2 / 1000)
      ++ (padDigits 3 (n2 % 1000) ++ offsetChars)) := by
    unfold fracSuffix fracChars
    rw [if_neg h2, if_neg hm2, if_neg hk2, List.cons_append, padDigits9_eq6,
      List.append_assoc]
  rw [e1, e2, lexCmp_cons_same]
  have hd1 : n1 / 1000 < 10 ^ 6 := by
    rw [show (10 : Nat) ^ 6 = 1000000 by norm_num]; omega
  have hd2 : n2 / 1000 < 10 ^ 6 := by
    rw [show (10 : Nat) ^ 6 = 1000000 by norm_num]; omega
  have htr := lexCmp_pad_trunc (d := n2 % 1000) hd1 hd2 (by norm_num : (0:Nat) < 3)
  constructor
  · rw [htr.1]; omega
  · rw [htr.2]
    constructor
    · intro h; cases h
    · intro h; omega

/-- The fractional-seconds field plus UTC offset, as chrono emits it, compares
in SQLite TEXT order exactly as the nanosecond values compare numerically. -/
theorem fracSuffix_cmp {n1 n2 : Nat} (hb1 : n1 < 10 ^ 9) (hb2 : n2 < 10 ^ 9) :
    (lexCmp (fracSuffix n1) (fracSuffix n2) = .lt ↔ n1 < n2) ∧
    (lexCmp (fracSuffix n1) (fracSuffix n2) = .eq ↔ n1 = n2) := by
  by_cases h1 : n1 = 0
  · by_cases h2 : n2 = 0
    · subst h1; subst h2
      rw [lexCmp_refl]
      constructor
      · constructor
        · intro h; cases h
        · intro h; omega
      · constructor
        · intro _; rfl
        · intro _; rfl
    · subst h1
      obtain ⟨tl, htl⟩ := fracChars_of_ne h2
      have e1 : fracSuffix 0 = '+' :: ['0', '0', ':', '0', '0'] := by
        unfold fracSuffix fracChars
        rw [if_pos rfl]
        rfl
      have e2 : fracSuffix n2 = '.' :: (tl ++ offsetChars) := by
        unfold fracSuffix
        rw [htl, List.cons_append]
      rw [e1, e2, lexCmp_head_lt (by decide : '+' < '.')]
      constructor
      · constructor
        · intro _; omega
        · intro _; rfl
      · constructor
        · intro h; cases h
        · intro h; omega
  · by_cases h2 : n2 = 0
    · subst h2
      obtain ⟨tl, htl⟩ := fracChars_of_ne h1
      have e1 : fracSuffix n1 = '.' :: (tl ++ offsetChars) := by
        unfold fracSuffix
        rw [htl, List.cons_append]
      have e2 : fracSuffix 0 = '+' :: ['0', '0', ':', '0', '0'] := by
        unfold fracSuffix fracChars
        rw [if_pos rfl]
        rfl
      rw [e1, e2, lexCmp_head_gt (by decide : '+' < '.')]
      constructor
      · constructor
        · intro h; cases h
        · intro h; omega
      · constructor
        · intro h; cases h
        · intro h; omega
    · by_cases hA1 : n1 % 1000000 = 0
      · by_cases hA2 : n2 % 1000000 = 0
        · exact frac_cmp_33 h1 h2 hA1 hA2 hb1 hb2
        · by_cases hB2 : n2 % 1000 = 0
          · exact frac_cmp_36 h1 h2 hA1 hA2 hB2 hb1 hb2
          · exact frac_cmp_39 h1 h2 hA1 hA2 hB2 hb1 hb2
      · by_cases hB1 : n1 % 1000 = 0
        · by_cases hA2 : n2 % 1000000 = 0
          · have hsw := frac_cmp_36 h2 h1 hA2 hA1 hB1 hb2 hb1
            exact cmp_iff_swap hsw.1 hsw.2
          · by_cases hB2 : n2 % 1000 = 0
            · exact frac_cmp_66 h1 h2 hA1 hB1 hA2 hB2 hb1 hb2
            · exact frac_cmp_69 h1 h2 hA1 hB1 hA2 hB2 hb1 hb2
        · by_cases hA2 : n2 % 1000000 = 0
          · have hsw := frac_cmp_39 h2 h1 hA2 hA1 hB1 hb2 hb1
            exact cmp_iff_swap hsw.1 hsw.2
          · by_cases hB2 : n2 % 1000 = 0
            · have hsw := frac_cmp_69 h2 h1 hA2 hB2 hA1 hB1 hb2 hb1
              exact cmp_iff_swap hsw.1 hsw.2
            · exact frac_cmp_99 h1 h2 hA1 hB1 hA2 hB2 hb1 hb2

theorem key5_lt {t : Instant} (h : t.Valid) : key5 t < M5 := by
  obtain ⟨-, -, -, -, -, -, -, hs, hn⟩ := h
  unfold key5 M5 NS
  rw [show (10 : Nat) ^ 9 = 1000000000 by norm_num] at hn ⊢
  omega

theorem key4_lt {t : Instant} (h : t.Valid) : key4 t < M4 := by
  obtain ⟨-, -, -, -, -, -, hmi, hs, hn⟩ := h
  unfold key4 key5 M4 M5 NS
  rw [show (10 : Nat) ^ 9 = 1000000000 by norm_num] at hn ⊢
  omega

theorem key3_lt {t : Instant} (h : t.Valid) : key3 t < M3 := by
  obtain ⟨-, -, -, -, -, hh, hmi, hs, hn⟩ := h
  unfold key3 key4 key5 M3 M4 M5 NS
  rw [show (10 : Nat) ^ 9 = 1000000000 by norm_num] at hn ⊢
  omega

theorem key2_lt {t : Instant} (h : t.Valid) : key2 t < M2 := by
  obtain ⟨-, -, -, -, hd, hh, hmi, hs, hn⟩ := h
  unfold key2 key3 key4 key5 M2 M3 M4 M5 NS
  rw [show (10 : Nat) ^ 9 = 1000000000 by norm_num] at hn ⊢
  omega

theorem key1_lt {t : Instant} (h : t.Valid) : key1 t < M1 := by
  obtain ⟨-, -, hmo, -, hd, hh, hmi, hs, hn⟩ := h
  unfold key1 key2 key3 key4 key5 M1 M2 M3 M4 M5 NS
  rw [show (10 : Nat) ^ 9 = 1000000000 by norm_num] at hn ⊢
  omega

theorem pad2_cmp_of_le {a b : Nat} (ha : a ≤ 99) (hb : b ≤ 99) :
    (lexCmp (padDigits 2 a) (padDigits 2 b) = .lt ↔ a < b) ∧
    (lexCmp (padDigits 2 a) (padDigits 2 b) = .eq ↔ a = b) := by
  have h100 : (10 : Nat) ^ 2 = 100 := by norm_num
  exact padDigits_cmp 2 a (by omega) b (by omega)

theorem tail5_cmp {t1 t2 : Instant} (h1 : t1.Valid) (h2 : t2.Valid) :
    (lexCmp (encTail5 t1) (encTail5 t2) = .lt ↔ key5 t1 < key5 t2) ∧
    (lexCmp (encTail5 t1) (encTail5 t2) = .eq ↔ key5 t1 = key5 t2) := by
  have hn1 : t1.nano < 10 ^ 9 := h1.2.2.2.2.2.2.2.2
  have hn2 : t2.nano < 10 ^ 9 := h2.2.2.2.2.2.2.2.2
  have hs1 : t1.second ≤ 59 := h1.2.2.2.2.2.2.2.1
  have hs2 : t2.second ≤ 59 := h2.2.2.2.2.2.2.2.1
  unfold encTail5
  rw [lexCmp_append_congr _ _ (by rw [padDigits_length, padDigits_length])]
  have hsec := pad2_cmp_of_le (by omega : t1.second ≤ 99) (by omega : t2.second ≤ 99)
  have hfr := fracSuffix_cmp hn1 hn2
  exact then_key hsec.1 hsec.2 hfr.1 hfr.2 hn1 hn2

theorem tail4_cmp {t1 t2 : Instant} (h1 : t1.Valid) (h2 : t2.Valid) :
    (lexCmp (encTail4 t1) (encTail4 t2) = .lt ↔ key4 t1 < key4 t2) ∧
    (lexCmp (encTail4 t1) (encTail4 t2) = .eq ↔ key4 t1 = key4 t2) := by
  have hmi1 : t1.minute ≤ 59 := h1.2.2.2.2.2.2.1
  have hmi2 : t2.minute ≤ 59 := h2.2.2.2.2.2.2.1
  unfold encTail4
  rw [lexCmp_append_congr _ _ (by rw [padDigits_length, padDigits_length]),
    lexCmp_cons_same]
  have hmin := pad2_cmp_of_le (by omega : t1.minute ≤ 99) (by omega : t2.minute ≤ 99)
  have ht5 := tail5_cmp h1 h2
  exact then_key hmin.1 hmin.2 ht5.1 ht5.2 (key5_lt h1) (key5_lt h2)

theorem tail3_cmp {t1 t2 : Instant} (h1 : t1.Valid) (h2 : t2.Valid) :
    (lexCmp (encTail3 t1) (encTail3 t2) = .lt ↔ key3 t1 < key3 t2) ∧
    (lexCmp (encTail3 t1) (encTail3 t2) = .eq ↔ key3 t1 = key3 t2) := by
  have hh1 : t1.hour ≤ 23 := h1.2.2.2.2.2.1
  have hh2 : t2.hour ≤ 23 := h2.2.2.2.2.2.1
  unfold encTail3
  rw [lexCmp_append_congr _ _ (by rw [padDigits_length, padDigits_length]),
    lexCmp_cons_same]
  have hhr := pad2_cmp_of_le (by omega : t1.hour ≤ 99) (by omega : t2.hour ≤ 99)
  have ht4 := tail4_cmp h1 h2
  exact then_key hhr.1 hhr.2 ht4.1 ht4.2 (key4_lt h1) (key4_lt h2)

theorem tail2_cmp {t1 t2 : Instant} (h1 : t1.Valid) (h2 : t2.Valid) :
    (lexCmp (encTail2 t1) (encTail2 t2) = .lt ↔ key2 t1 < key2 t2) ∧
    (lexCmp (encTail2 t1) (encTail2 t2) = .eq ↔ key2 t1 = key2 t2) := by
  have hd1 : t1.day ≤ 31 := h1.2.2.2.2.1
  have hd2 : t2.day ≤ 31 := h2.2.2.2.2.1
  unfold encTail2
  rw [lexCmp_append_congr _ _ (by rw [padDigits_length, padDigits_length]),
    lexCmp_cons_same]
  have hdy := pad2_cmp_of_le (by omega : t1.day ≤ 99) (by omega : t2.day ≤ 99)
  have ht3 := tail3_cmp h1 h2
  exact then_key hdy.1 hdy.2 ht3.1 ht3.2 (key3_lt h1) (key3_lt h2)

theorem tail1_cmp {t1 t2 : Instant} (h1 : t1.Valid) (h2 : t2.Valid) :
    (lexCmp (encTail1 t1) (encTail1 t2) = .lt ↔ key1 t1 < key1 t2) ∧
    (lexCmp (encTail1 t1) (encTail1 t2) = .eq ↔ key1 t1 = key1 t2) := by
  have hmo1 : t1.month ≤ 12 := h1.2.2.1
  have hmo2 : t2.month ≤ 12 := h2.2.2.1
  unfold encTail1
  rw [lexCmp_append_congr _ _ (by rw [padDigits_length, padDigits_length]),
    lexCmp_cons_same]
  have hmo := pad2_cmp_of_le (by omega : t1.month ≤ 99) (by omega : t2.month ≤ 99)
  have ht2 := tail2_cmp h1 h2
  exact then_key hmo.1 hmo.2 ht2.1 ht2.2 (key2_lt h1) (key2_lt h2)

/-- For valid instants (years 0000–9999), chrono's RFC3339 encoding compares
in SQLite TEXT order exactly as the instants compare chronologically. -/
theorem encode_cmp {t1 t2 : Instant} (h1 : t1.Valid) (h2 : t2.Valid) :
    (lexCmp (encodeRfc3339 t1) (encodeRfc3339 t2) = .lt ↔
      instantKey t1 < instantKey t2) ∧
    (lexCmp (encodeRfc3339 t1) (encodeRfc3339 t2) = .eq ↔
      instantKey t1 = instantKey t2) := by
  have hy1 : t1.year ≤ 9999 := h1.1
  have hy2 : t2.year ≤ 9999 := h2.1
  unfold encodeRfc3339 yearChars
  rw [if_pos (by omega : t1.year < 10000), if_pos (by omega : t2.year < 10000)]
  rw [lexCmp_append_congr _ _ (by rw [padDigits_length, padDigits_length]),
    lexCmp_cons_same]
  have h4 : (10 : Nat) ^ 4 = 10000 := by norm_num
  have hyr := padDigits_cmp 4 t1.year (by omega) t2.year (by omega)
  have ht1 := tail1_cmp h1 h2
  exact then_key hyr.1 hyr.2 ht1.1 ht1.2 (key1_lt h1) (key1_lt h2)

theorem textLt_iff (s t : List Char) : textLt s t = true ↔ lexCmp s t = .lt := by
  unfold textLt
  cases h : lexCmp s t <;> simp <;> rfl

/-- `textLt` form of `encode_cmp`: the stored-string comparison used by the
retention `DELETE` agrees with chronological order on valid instants. -/
theorem encode_textLt_iff {t1 t2 : Instant} (h1 : t1.Valid) (h2 : t2.Valid) :
    textLt (encodeRfc3339 t1) (encodeRfc3339 t2) = true ↔
      instantKey t1 < instantKey t2 := by
  rw [textLt_iff]
  exact (encode_cmp h1 h2).1

/-- The encoding is injective on valid instants (up to the chronological key). -/
theorem encode_eq_iff {t1 t2 : Instant} (h1 : t1.Valid) (h2 : t2.Valid) :
    encodeRfc3339 t1 = encodeRfc3339 t2 ↔ instantKey t1 = instantKey t2 := by
  rw [← lexCmp_eq_iff]
  exact (encode_cmp h1 h2).2

/-! ## The record store

The `commands` table is embedded as a list of rows in insertion (rowid)
order.  `timestamp` is the TEXT column, held as the character list of the
RFC3339 string written at insert time.  `savings_pct` is the REAL column;
the f64 arithmetic of the source stays in exact range for token counts, so
it is modelled as exact rational arithmetic. -/

structure Row where
  timestamp : List Char
  original_cmd : String
  rtk_cmd : String
  input_tokens : Nat
  output_tokens : Nat
  saved_tokens : Nat
  savings_pct : Rat
  exec_time_ms : Nat
  working_dir : String
deriving DecidableEq, Repr

/-- `QueryScope`: filter by project directory, or no filter. -/
inductive QueryScope where
  | Project (dir : String)
  | Global
deriving DecidableEq, Repr

/-- `scope_filter` applied by every query: `Project dir` appends
`WHERE working_dir = ?1` (exact TEXT equality, no normalization),
`Global` reads every row. -/
def scopedRows (scope : QueryScope) (db : List Row) : List Row :=
  match scope with
  | .Project dir => db.filter (fun r => r.working_dir == dir)
  | .Global => db

/-- The row `Tracker::record` builds: `saved = input_tokens.saturating_sub(output_tokens)`
(truncated `Nat` subtraction), `pct = (saved / input) * 100` guarded by `input > 0`,
timestamp `Utc::now().to_rfc3339()`. -/
def Tracker.recordRow (now : Instant) (original_cmd rtk_cmd : String)
    (input_tokens output_tokens exec_time_ms : Nat) (working_dir : String) : Row :=
  let saved := input_tokens - output_tokens
  let pct : Rat := if input_tokens > 0
    then ((saved : Rat) / (input_tokens : Rat)) * 100 else 0
  { timestamp := encodeRfc3339 now
    original_cmd := original_cmd
    rtk_cmd := rtk_cmd
    input_tokens := input_tokens
    output_tokens := output_tokens
    saved_tokens := saved
    savings_pct := pct
    exec_time_ms := exec_time_ms
    working_dir := working_dir }

/-- `Tracker::cleanup_old`: `DELETE FROM commands WHERE timestamp < ?1` with
`?1 = (Utc::now() - Duration::days(90)).to_rfc3339()`.  SQLite compares the
TEXT column against the bound string byte-wise; `cutoff` is the instant
"now − 90 days" computed by chrono, an external collaborator, so it arrives
as a parameter. -/
def Tracker.cleanup_old (cutoff : Instant) (db : List Row) : List Row :=
  db.filter (fun r => ! textLt r.timestamp (encodeRfc3339 cutoff))

/-- `Tracker::record`: insert the computed row, then unconditionally run the
retention delete. -/
def Tracker.record (db : List Row) (now cutoff : Instant)
    (original_cmd rtk_cmd : String) (input_tokens output_tokens exec_time_ms : Nat)
    (working_dir : String) : List Row :=
  Tracker.cleanup_old cutoff
    (db ++ [Tracker.recordRow now original_cmd rtk_cmd input_tokens output_tokens
      exec_time_ms working_dir])

/-! ### Aggregation

SQLite's `GROUP BY k ORDER BY k DESC` yields one bucket per distinct key,
keys descending in TEXT order; every `get_*` function then reverses the
fetched list in memory. -/

/-- `a ≥ b` in SQLite TEXT order — the `ORDER BY … DESC` comparator. -/
def keyGe (a b : List Char) : Prop := lexCmp a b ≠ .lt

instance : DecidableRel keyGe := fun a b => by unfold keyGe; infer_instance

instance : IsTotal (List Char) keyGe where
  total a b := by
    unfold keyGe
    rcases h : lexCmp a b with _ | _ | _
    · right
      rw [← lexCmp_gt_iff_lt] at h
      simp [h]
    · left; simp
    · left; simp

instance : IsTrans (List Char) keyGe where
  trans a b c hab hbc := by
    unfold keyGe at *
    intro hac
    rcases h1 : lexCmp a b with _ | _ | _
    · exact hab h1
    · have : a = b := (lexCmp_eq_iff a b).mp h1
      subst this
      exact hbc hac
    · have hba : lexCmp b a = .lt := (lexCmp_gt_iff_lt a b).mp h1
      exact hbc (lexCmp_lt_trans hba hac)

/-- `DATE(timestamp)` over our stored RFC3339 strings: the `YYYY-MM-DD`
prefix, i.e. the first 10 characters. -/
def dayKey (r : Row) : List Char := r.timestamp.take 10

/-- `strftime('%Y-%m', timestamp)`: the `YYYY-MM` prefix. -/
def monthKey (r : Row) : List Char := r.timestamp.take 7

/-- The distinct bucket keys of the matching rows, descending in TEXT order
(`GROUP BY keyOf ORDER BY keyOf DESC`). -/
def bucketKeysDesc (keyOf : Row → List Char) (rows : List Row) : List (List Char) :=
  List.insertionSort keyGe ((rows.map keyOf).dedup)

/-- The rows aggregated into the bucket with key `k`. -/
def bucketRows (keyOf : Row → List Char) (rows : List Row) (k : List Char) : List Row :=
  rows.filter (fun r => keyOf r == k)

structure DayStats where
  date : List Char
  commands : Nat
  input_tokens : Nat
  output_tokens : Nat
  saved_tokens : Nat
  savings_pct : Rat
  total_time_ms : Nat
  avg_time_ms : Nat
deriving DecidableEq, Repr

/-- The per-bucket computation of `get_all_days`'s `map_row`: the SQL `SUM`/
`COUNT` columns of the group, then the savings percentage from the summed
tokens and the average time from the summed time (integer division), each
guarded against a zero denominator. -/
def mkDayStats (k : List Char) (bucket : List Row) : DayStats :=
  let commands := bucket.length
  let input := (bucket.map (·.input_tokens)).sum
  let output := (bucket.map (·.output_tokens)).sum
  let saved := (bucket.map (·.saved_tokens)).sum
  let total_time := (bucket.map (·.exec_time_ms)).sum
  { date := k
    commands := commands
    input_tokens := input
    output_tokens := output
    saved_tokens := saved
    savings_pct := if input > 0 then ((saved : Rat) / (input : Rat)) * 100 else 0
    total_time_ms := total_time
    avg_time_ms := if commands > 0 then total_time / commands else 0 }

/-- `Tracker::get_all_days`: one `DayStats` per calendar day, fetched
descending by date and reversed in memory. -/
def Tracker.get_all_days (scope : QueryScope) (db : List Row) : List DayStats :=
  let rows := scopedRows scope db
  ((bucketKeysDesc dayKey rows).map
    (fun k => mkDayStats k (bucketRows dayKey rows k))).reverse

/-- `Tracker::get_by_day` (private, feeds `GainSummary.by_day`):
`(DATE(timestamp), SUM(saved_tokens))` per day, descending, `LIMIT 30`,
then reversed in memory. -/
def Tracker.get_by_day (scope : QueryScope) (db : List Row) : List (List Char × Nat) :=
  let rows := scopedRows scope db
  (((bucketKeysDesc dayKey rows).take 30).map
    (fun k => (k, ((bucketRows dayKey rows k).map (·.saved_tokens)).sum))).reverse

structure WeekStats where
  week_start : List Char
  week_end : List Char
  commands : Nat
  input_tokens : Nat
  output_tokens : Nat
  saved_tokens : Nat
  savings_pct : Rat
  total_time_ms : Nat
  avg_time_ms : Nat
deriving DecidableEq, Repr

/-- Per-bucket computation of `get_by_week`'s `map_row` (same numeric rules
as `mkDayStats`). -/
def mkWeekStats (ws we : List Char) (bucket : List Row) : WeekStats :=
  let commands := bucket.length
  let input := (bucket.map (·.input_tokens)).sum
  let output := (bucket.map (·.output_tokens)).sum
  let saved := (bucket.map (·.saved_tokens)).sum
  let total_time := (bucket.map (·.exec_time_ms)).sum
  { week_start := ws
    week_end := we
    commands := commands
    input_tokens := input
    output_tokens := output
    saved_tokens := saved
    savings_pct := if input > 0 then ((saved : Rat) / (input : Rat)) * 100 else 0
    total_time_ms := total_time
    avg_time_ms := if commands > 0 then total_time / commands else 0 }

/-- `Tracker::get_by_week`.  `weekStart`/`weekEnd` model SQLite's
`DATE(timestamp,'weekday 0','-6 days')` and `DATE(timestamp,'weekday 0')` —
date computations of the external storage engine, so they arrive as
parameters; grouping and descending order are on the `week_start` key, and
the bucket's `week_end` is the value from one row of the group. -/
def Tracker.get_by_week (weekStart weekEnd : List Char → List Char)
    (scope : QueryScope) (db : List Row) : List WeekStats :=
  let rows := scopedRows scope db
  ((bucketKeysDesc (fun r => weekStart r.timestamp) rows).map
    (fun k =>
      let bucket := bucketRows (fun r => weekStart r.timestamp) rows k
      mkWeekStats k ((bucket.head?.map (fun r => weekEnd r.timestamp)).getD []) bucket)).reverse

structure MonthStats where
  month : List Char
  commands : Nat
  input_tokens : Nat
  output_tokens : Nat
  saved_tokens : Nat
  savings_pct : Rat
  total_time_ms : Nat
  avg_time_ms : Nat
deriving DecidableEq, Repr

/-- Per-bucket computation of `get_by_month`'s `map_row`. -/
def mkMonthStats (k : List Char) (bucket : List Row) : MonthStats :=
  let commands := bucket.length
  let input := (bucket.map (·.input_tokens)).sum
  let output := (bucket.map (·.output_tokens)).sum
  let saved := (bucket.map (·.saved_tokens)).sum
  let total_time := (bucket.map (·.exec_time_ms)).sum
  { month := k
    commands := commands
    input_tokens := input
    output_tokens := output
    saved_tokens := saved
    savings_pct := if input > 0 then ((saved : Rat) / (input : Rat)) * 100 else 0
    total_time_ms := total_time
    avg_time_ms := if commands > 0 then total_time / commands else 0 }

/-- `Tracker::get_by_month`: one bucket per `YYYY-MM`, fetched descending
and reversed in memory. -/
def Tracker.get_by_month (scope : QueryScope) (db : List Row) : List MonthStats :=
  let rows := scopedRows scope db
  ((bucketKeysDesc monthKey rows).map
    (fun k => mkMonthStats k (bucketRows monthKey rows k))).reverse

/-- The accumulator loop of `get_summary`: count, Σinput, Σoutput, Σsaved,
Σtime over the scanned rows. -/
def summarize : List Row → Nat × Nat × Nat × Nat × Nat
  | [] => (0, 0, 0, 0, 0)
  | r :: rs =>
    let acc := summarize rs
    (acc.1 + 1, acc.2.1 + r.input_tokens, acc.2.2.1 + r.output_tokens,
      acc.2.2.2.1 + r.saved_tokens, acc.2.2.2.2 + r.exec_time_ms)

/-- `GainSummary` (the `by_command` breakdown, which no claim concerns, is
omitted from the embedding). -/
structure GainSummary where
  total_commands : Nat
  total_input : Nat
  total_output : Nat
  total_saved : Nat
  avg_savings_pct : Rat
  total_time_ms : Nat
  avg_time_ms : Nat
  by_day : List (List Char × Nat)
deriving DecidableEq, Repr

/-- `Tracker::get_summary`: scan the scoped rows once, then derive the
overall percentage and average from the totals with the zero-denominator
guards of the source. -/
def Tracker.get_summary (scope : QueryScope) (db : List Row) : GainSummary :=
  let acc := summarize (scopedRows scope db)
  { total_commands := acc.1
    total_input := acc.2.1
    total_output := acc.2.2.1
    total_saved := acc.2.2.2.1
    avg_savings_pct := if acc.2.1 > 0
      then ((acc.2.2.2.1 : Rat) / (acc.2.1 : Rat)) * 100 else 0
    total_time_ms := acc.2.2.2.2
    avg_time_ms := if acc.1 > 0 then acc.2.2.2.2 / acc.1 else 0
    by_day := Tracker.get_by_day scope db }

/-- The struct `get_recent` returns per row. -/
structure CommandRecord where
  timestamp : Instant
  rtk_cmd : String
  saved_tokens : Nat
  savings_pct : Rat
deriving DecidableEq, Repr

/-- `ORDER BY timestamp DESC` comparator on rows. -/
def rowTsGe (a b : Row) : Prop := keyGe a.timestamp b.timestamp

instance : DecidableRel rowTsGe := fun a b => by unfold rowTsGe; infer_instance

/-- The row-to-record mapping of `get_recent`: the stored timestamp text is
parsed back with `DateTime::parse_from_rfc3339`; on parse failure the record
silently carries `Utc::now()` instead (`unwrap_or_else`), never an error.
`parseTs` models chrono's parser and `now` the fallback clock read, both
external collaborators. -/
def mkRecentRecord (parseTs : List Char → Option Instant) (now : Instant)
    (r : Row) : CommandRecord :=
  { timestamp := (parseTs r.timestamp).getD now
    rtk_cmd := r.rtk_cmd
    saved_tokens := r.saved_tokens
    savings_pct := r.savings_pct }

/-- `Tracker::get_recent`: up to `limit` most recent rows (timestamp
descending), each mapped through `mkRecentRecord`.  Total: no row can make
it fail. -/
def Tracker.get_recent (parseTs : List Char → Option Instant) (now : Instant)
    (limit : Nat) (scope : QueryScope) (db : List Row) : List CommandRecord :=
  ((List.insertionSort rowTsGe (scopedRows scope db)).take limit).map
    (mkRecentRecord parseTs now)

/-! ## Schema construction (`Tracker::new`) -/

/-- Classes of errors the storage engine can raise while running a schema
statement. `duplicateColumn` is SQLite's "duplicate column name" error. -/
inductive SqlError where
  | duplicateColumn
  | ioError
  | locked
  | other
deriving DecidableEq, Repr

/-- The schema statements `Tracker::new` executes, in order. -/
inductive SchemaStmt where
  | createTable
  | createIdxTimestamp
  | alterExecTime
  | alterWorkingDir
  | createIdxWorkingDir
deriving DecidableEq, Repr

/-- `Tracker::new`'s error handling: the three `CREATE … IF NOT EXISTS`
statements propagate failure with `?`; the results of the two additive
`ALTER TABLE` migrations are discarded with `let _ =`.  `exec` models the
storage engine running one statement. -/
def Tracker.new (exec : SchemaStmt → Except SqlError Unit) : Except SqlError Unit :=
  match exec .createTable with
  | .error e => .error e
  | .ok _ =>
    match exec .createIdxTimestamp with
    | .error e => .error e
    | .ok _ =>
      let _ := exec .alterExecTime
      let _ := exec .alterWorkingDir
      match exec .createIdxWorkingDir with
      | .error e => .error e
      | .ok _ => .ok ()

/-- The schema state `Tracker::new` manipulates: whether the `commands`
table, the two indexes and the two migrated columns exist in the database
file. -/
structure Schema where
  commandsTable : Bool
  idxTimestamp : Bool
  idxWorkingDir : Bool
  execTimeCol : Bool
  workingDirCol : Bool
deriving DecidableEq, Repr

/-- SQLite's documented semantics of the five fixed schema statements on a
healthy engine (engine failures such as I/O errors are the subject of the
`exec`-environment model above): `CREATE TABLE IF NOT EXISTS` creates the
table with the *base* columns only when absent and is a no-op otherwise;
`CREATE INDEX IF NOT EXISTS` likewise; `ALTER TABLE … ADD COLUMN` adds the
column, or fails with the "duplicate column name" error when it is already
present. -/
def runStmt : SchemaStmt → Schema → Schema × Except SqlError Unit
  | .createTable, s =>
    if s.commandsTable then (s, .ok ())
    else ({ s with
      commandsTable := true
      execTimeCol := false
      workingDirCol := false }, .ok ())
  | .createIdxTimestamp, s => ({ s with idxTimestamp := true }, .ok ())
  | .alterExecTime, s =>
    if s.execTimeCol then (s, .error .duplicateColumn)
    else ({ s with execTimeCol := true }, .ok ())
  | .alterWorkingDir, s =>
    if s.workingDirCol then (s, .error .duplicateColumn)
    else ({ s with workingDirCol := true }, .ok ())
  | .createIdxWorkingDir, s => ({ s with idxWorkingDir := true }, .ok ())

/-- `Tracker::new` run against the schema state: the same statement
sequence as `Tracker.new`, with the `ALTER TABLE` results discarded
(`let _ =`) and the creation results propagated (`?`). -/
def Tracker.newOnSchema (s : Schema) : Schema × Except SqlError Unit :=
  let r1 := runStmt .createTable s
  match r1.2 with
  | .error e => (r1.1, .error e)
  | .ok _ =>
    let r2 := runStmt .createIdxTimestamp r1.1
    match r2.2 with
    | .error e => (r2.1, .error e)
    | .ok _ =>
      let r3 := runStmt .alterExecTime r2.1
      let r4 := runStmt .alterWorkingDir r3.1
      let r5 := runStmt .createIdxWorkingDir r4.1
      match r5.2 with
      | .error e => (r5.1, .error e)
      | .ok _ => (r5.1, .ok ())

/-! ## Token estimation and project-root detection -/

/-- `estimate_tokens`: `(text.len() as f64 / 4.0).ceil() as usize`.
`str::len` is the UTF-8 byte count; the f64 division is exact for every
representable length, so the ceiling is taken in exact arithmetic. -/
def estimate_tokens (text : String) : Nat :=
  (⌈(text.utf8ByteSize : Rat) / 4⌉).toNat

/-- The fixed marker set of `detect_project_root_from`. -/
def MARKERS : List String := [".git", "Cargo.toml", "package.json", "go.mod", "pyproject.toml"]

/-- `dir.join(marker).exists()` for any marker.  Paths are component lists
(`[]` is the filesystem root); `fsExists` models the filesystem state. -/
def hasMarker (fsExists : List String → Bool) (dir : List String) : Bool :=
  MARKERS.any (fun m => fsExists (dir ++ [m]))

/-- The ancestor-walking loop of `detect_project_root_from`: test the current
directory, then `pop` (drop the last component) until `pop` fails at the
root. -/
def walkUp (fsExists : List String → Bool) (dir : List String) : Option (List String) :=
  if hasMarker fsExists dir then some dir
  else if h : dir = [] then none
  else walkUp fsExists dir.dropLast
termination_by dir.length
decreasing_by
  simp only [List.length_dropLast]
  have : dir ≠ [] := h
  have : 0 < dir.length := List.length_pos.mpr this
  omega

/-- `to_string_lossy` of an absolute path given by its components. -/
def pathString (l : List String) : String := "/" ++ String.intercalate "/" l

/-- `detect_project_root_from(start)`: canonicalize the start directory
(falling back to the raw path when canonicalization fails — `canon` models
`std::fs::canonicalize`), walk up, and render the hit or return `""`. -/
def detect_project_root_from (fsExists : List String → Bool)
    (canon : List String → Option (List String)) (start : List String) : String :=
  match walkUp fsExists ((canon start).getD start) with
  | some d => pathString d
  | none => ""

/-- The ancestor chain of a directory, innermost first, ending at the root. -/
def ancestors (dir : List String) : List (List String) :=
  dir :: (if h : dir = [] then [] else ancestors dir.dropLast)
termination_by dir.length
decreasing_by
  simp only [List.length_dropLast]
  have : dir ≠ [] := h
  have : 0 < dir.length := List.length_pos.mpr this
  omega

/-! ## Claim theorems -/

/-- C1: for every call to `Tracker::record`, the row written has
`saved_tokens = max(0, input_tokens − output_tokens)` and `savings_pct = 0`
when `input_tokens = 0`, else `100 * saved_tokens / input_tokens` (exact
rational arithmetic standing in for the in-range f64 computation); and
`record` is exactly "insert that row, then run retention cleanup". -/
theorem record_saved_and_pct (now : Instant) (oc rc : String)
    (input output exec : Nat) (wd : String) :
    ((Tracker.recordRow now oc rc input output exec wd).saved_tokens : Int) =
      max 0 ((input : Int) - (output : Int)) ∧
    (Tracker.recordRow now oc rc input output exec wd).savings_pct =
      (if input = 0 then 0 else
        100 * ((Tracker.recordRow now oc rc input output exec wd).saved_tokens : Rat)
          / (input : Rat)) ∧
    ∀ (db : List Row) (cutoff : Instant),
      Tracker.record db now cutoff oc rc input output exec wd =
        Tracker.cleanup_old cutoff
          (db ++ [Tracker.recordRow now oc rc input output exec wd]) := by
  refine ⟨?_, ?_, fun db cutoff => rfl⟩
  · show ((input - output : Nat) : Int) = max 0 ((input : Int) - (output : Int))
    omega
  · show (if input > 0 then (((input - output : Nat) : Rat) / (input : Rat)) * 100 else 0)
      = (if input = 0 then 0 else 100 * ((input - output : Nat) : Rat) / (input : Rat))
    by_cases h : input = 0
    · simp [h]
    · rw [if_pos (by omega), if_neg h]
      ring

/-- C2 counterexample: `estimate_tokens` divides the UTF-8 **byte** count by
4, not the character count: on `"øøøø"` (4 characters, 8 bytes) it returns 2
while `ceil(character_count / 4) = 1`. -/
theorem estimate_tokens_char_count_cex :
    estimate_tokens "øøøø" = 2 ∧ ("øøøø" : String).length = 4 ∧
      (⌈((("øøøø" : String).length : Rat)) / 4⌉).toNat = 1 ∧
      estimate_tokens "øøøø" ≠ (⌈((("øøøø" : String).length : Rat)) / 4⌉).toNat := by
  have hb : ("øøøø" : String).utf8ByteSize = 8 := by rfl
  have hl : ("øøøø" : String).length = 4 := by rfl
  have h2 : estimate_tokens "øøøø" = 2 := by
    unfold estimate_tokens
    rw [hb]
    norm_num
    rfl
  have h1 : (⌈(((4 : Nat) : Rat)) / 4⌉).toNat = 1 := by
    norm_num
  rw [hl]
  exact ⟨h2, rfl, h1, by rw [h2, h1]; omega⟩

/-- C2 (amended): `estimate_tokens(text) = ceil(byte_count(text) / 4)` where
`byte_count` is the UTF-8 length (`str::len`); hence 0 for the empty string,
1 for any 4-byte string, 2 for any 5-byte string — which coincides with the
claimed character-count behaviour exactly on ASCII text. -/
theorem estimate_tokens_ceil_bytes (text : String) :
    estimate_tokens text = (text.utf8ByteSize + 3) / 4 := by
  unfold estimate_tokens
  have hceil : ⌈(text.utf8ByteSize : Rat) / 4⌉
      = -((-(text.utf8ByteSize : Int)) / ((4 : Nat) : Int)) := by
    rw [← neg_neg ((text.utf8ByteSize : Rat) / 4), Int.ceil_neg, ← neg_div,
      show -(text.utf8ByteSize : Rat) = ((-(text.utf8ByteSize : Int) : Int) : Rat)
        from by push_cast; ring,
      show (4 : Rat) = ((4 : Nat) : Rat) from by norm_num,
      Rat.floor_intCast_div_natCast]
  rw [hceil]
  omega

/-- A legacy row with an empty `working_dir`, used as concrete input. -/
def emptyDirRow : Row :=
  { timestamp := []
    original_cmd := "old cmd"
    rtk_cmd := "rtk old"
    input_tokens := 100
    output_tokens := 20
    saved_tokens := 80
    savings_pct := 80
    exec_time_ms := 5
    working_dir := "" }

/-- C3 counterexample: the scope filter is plain string equality, so a row
whose `working_dir` is the empty string *is* selected by the Project scope
built from the empty string — refuting "never under any Project scope". -/
theorem empty_dir_selected_by_empty_project_cex :
    emptyDirRow.working_dir = "" ∧
      emptyDirRow ∈ scopedRows (.Project "") [emptyDirRow] := by
  constructor
  · rfl
  · simp [scopedRows, emptyDirRow]

/-- C3 (amended): `Project dir` selects exactly the rows whose `working_dir`
equals `dir` by exact string comparison (no normalization at read time);
a row with empty `working_dir` is selected under `Global`, and under a
`Project` scope only for the empty directory string — never under a
`Project` scope with a nonempty directory. -/
theorem project_scope_exact_match (db : List Row) (dir : String) (r : Row) :
    (r ∈ scopedRows (.Project dir) db ↔ r ∈ db ∧ r.working_dir = dir) ∧
    (r ∈ scopedRows .Global db ↔ r ∈ db) ∧
    (r.working_dir = "" → ∀ d : String, d ≠ "" →
      r ∉ scopedRows (.Project d) db) := by
  refine ⟨?_, Iff.rfl, ?_⟩
  · simp [scopedRows, List.mem_filter]
  · intro hwd d hd hmem
    simp [scopedRows, List.mem_filter] at hmem
    exact hd (hwd ▸ hmem.2.symm)

/-- A schema-execution environment in which both additive `ALTER TABLE`
migrations fail with an I/O error (not "duplicate column") and every
creation statement succeeds. -/
def alterFailsEnv : SchemaStmt → Except SqlError Unit
  | .alterExecTime => .error .ioError
  | .alterWorkingDir => .error .ioError
  | _ => .ok ()

/-- C5 counterexample: `Tracker::new` discards the `ALTER TABLE` results with
`let _ =`, so a migration failing with an I/O error — a class other than
"column already exists" — is swallowed too, and construction still succeeds. -/
theorem tracker_new_swallows_any_alter_error_cex :
    Tracker.new alterFailsEnv = .ok () ∧
      alterFailsEnv .alterExecTime = .error .ioError ∧
      SqlError.ioError ≠ SqlError.duplicateColumn := by
  refine ⟨rfl, rfl, ?_⟩
  intro h
  cases h

/-- C5 (amended): store construction is idempotent across repeated runs —
on a healthy storage engine it succeeds from every prior schema state, a
second run leaves the schema unchanged and still succeeds, and on an
already-migrated schema the two additive `ALTER TABLE` statements raise
exactly the "column already exists" error, which construction discards.
A failure to create the table or either index is fatal (the first such
error is returned), while *every* error produced by the two `ALTER TABLE`
migrations is ignored — the "column already exists" class being merely the
expected instance — not only that class. -/
theorem tracker_new_construction_semantics :
    (∀ exec : SchemaStmt → Except SqlError Unit,
      (Tracker.new exec = .ok () ↔
        exec .createTable = .ok () ∧ exec .createIdxTimestamp = .ok () ∧
          exec .createIdxWorkingDir = .ok ()) ∧
      (∀ e, exec .createTable = .error e → Tracker.new exec = .error e) ∧
      (∀ e, exec .createTable = .ok () → exec .createIdxTimestamp = .error e →
        Tracker.new exec = .error e) ∧
      (∀ e, exec .createTable = .ok () → exec .createIdxTimestamp = .ok () →
        exec .createIdxWorkingDir = .error e → Tracker.new exec = .error e)) ∧
    (∀ s : Schema,
      (Tracker.newOnSchema s).2 = .ok () ∧
      Tracker.newOnSchema (Tracker.newOnSchema s).1 =
        ((Tracker.newOnSchema s).1, .ok ()) ∧
      (runStmt .alterExecTime (Tracker.newOnSchema s).1).2 =
        .error .duplicateColumn ∧
      (runStmt .alterWorkingDir (Tracker.newOnSchema s).1).2 =
        .error .duplicateColumn) := by
  constructor
  · intro exec
    unfold Tracker.new
    rcases hct : exec .createTable with e1 | ⟨⟩
    · simp
    · rcases hit : exec .createIdxTimestamp with e2 | ⟨⟩
      · simp
      · rcases hiw : exec .createIdxWorkingDir with e3 | ⟨⟩
        · simp
        · simp
  · intro s
    rcases s with ⟨t, i1, i2, c1, c2⟩
    cases t <;> cases i1 <;> cases i2 <;> cases c1 <;> cases c2 <;>
      exact ⟨rfl, rfl, rfl, rfl⟩

/-- C10: `get_recent` is total — its row mapping never propagates a
timestamp-parse error.  It returns exactly the mapped rows, and any row
whose stored timestamp string fails to parse yields a record that silently
carries the fallback "current time" in place of the stored timestamp, all
other fields copied unchanged; a row that parses gets its parsed instant. -/
theorem get_recent_parse_fallback (parseTs : List Char → Option Instant)
    (now : Instant) (limit : Nat) (scope : QueryScope) (db : List Row) :
    Tracker.get_recent parseTs now limit scope db =
      ((List.insertionSort rowTsGe (scopedRows scope db)).take limit).map
        (mkRecentRecord parseTs now) ∧
    (∀ r : Row, parseTs r.timestamp = none →
      mkRecentRecord parseTs now r =
        { timestamp := now
          rtk_cmd := r.rtk_cmd
          saved_tokens := r.saved_tokens
          savings_pct := r.savings_pct }) ∧
    (∀ (r : Row) (t : Instant), parseTs r.timestamp = some t →
      (mkRecentRecord parseTs now r).timestamp = t) := by
  refine ⟨rfl, ?_, ?_⟩
  · intro r h
    unfold mkRecentRecord
    rw [h]
    rfl
  · intro r t h
    unfold mkRecentRecord
    rw [h]
    rfl

theorem walkUp_eq_find (fs : List String → Bool) :
    ∀ (n : Nat) (dir : List String), dir.length ≤ n →
      walkUp fs dir = (ancestors dir).find? (hasMarker fs) := by
  intro n
  induction n with
  | zero =>
    intro dir hlen
    have hdir : dir = [] := List.eq_nil_of_length_eq_zero (Nat.le_zero.mp hlen)
    subst hdir
    rw [walkUp, ancestors]
    by_cases hm : hasMarker fs []
    · simp [hm, List.find?]
    · simp [hm, List.find?]
  | succ n ih =>
    intro dir hlen
    rw [walkUp, ancestors]
    by_cases hm : hasMarker fs dir
    · simp [hm, List.find?]
    · by_cases hd : dir = []
      · subst hd
        simp [hm, List.find?]
      · have hstep : dir.dropLast.length ≤ n := by
          have h1 : 0 < dir.length := List.length_pos.mpr hd
          rw [List.length_dropLast]
          omega
        simp only [if_neg hm, dif_neg hd]
        rw [ih dir.dropLast hstep]
        simp [List.find?, hm]

/-- C9: `detect_project_root_from` returns the rendering of the first
ancestor — the canonicalized start directory itself included, with fallback
to the raw path when canonicalization fails — that contains one of the fixed
markers, and the empty string when no ancestor up to the filesystem root
does.  `fsExists` is the filesystem, `canon` is `std::fs::canonicalize`. -/
theorem detect_project_root_first_marked_ancestor (fsExists : List String → Bool)
    (canon : List String → Option (List String)) (start : List String) :
    detect_project_root_from fsExists canon start =
      match (ancestors ((canon start).getD start)).find? (hasMarker fsExists) with
      | some d => pathString d
      | none => "" := by
  unfold detect_project_root_from
  rw [walkUp_eq_find fsExists ((canon start).getD start).length _ le_rfl]

/-- C4: after a successful `record`, no surviving row's stored timestamp
denotes an instant chronologically before the 90-day cutoff (`cutoff` is
the instant `now − 90 days` that `cleanup_old` computes); and `record` is
unconditionally insert-then-retention-delete. -/
theorem record_retention_bound (db : List Row) (now cutoff : Instant)
    (oc rc : String) (input output exec : Nat) (wd : String)
    (hcut : cutoff.Valid) :
    (∀ r ∈ Tracker.record db now cutoff oc rc input output exec wd,
      ∀ t : Instant, t.Valid → r.timestamp = encodeRfc3339 t →
        instantKey cutoff ≤ instantKey t) ∧
    Tracker.record db now cutoff oc rc input output exec wd =
      Tracker.cleanup_old cutoff
        (db ++ [Tracker.recordRow now oc rc input output exec wd]) := by
  refine ⟨?_, rfl⟩
  intro r hr t ht hts
  unfold Tracker.record Tracker.cleanup_old at hr
  rw [List.mem_filter] at hr
  have hkeep : textLt r.timestamp (encodeRfc3339 cutoff) = false := by
    rcases hb : textLt r.timestamp (encodeRfc3339 cutoff) with _ | _
    · rfl
    · rw [hb] at hr
      simp at hr
  rw [hts] at hkeep
  by_contra hlt
  push_neg at hlt
  rw [← encode_textLt_iff ht hcut] at hlt
  rw [hlt] at hkeep
  cases hkeep

/-- C4 witness: a concrete call — empty store, record on 2026-10-12 with
cutoff 2026-07-14 — satisfying the theorem's hypothesis. -/
theorem record_retention_bound_witness :
    (∀ r ∈ Tracker.record [] ⟨2026, 10, 12, 8, 0, 0, 0⟩ ⟨2026, 7, 14, 8, 0, 0, 0⟩
        "git status" "rtk git status" 100 20 50 "/projects/foo",
      ∀ t : Instant, t.Valid → r.timestamp = encodeRfc3339 t →
        instantKey ⟨2026, 7, 14, 8, 0, 0, 0⟩ ≤ instantKey t) ∧
    Tracker.record [] ⟨2026, 10, 12, 8, 0, 0, 0⟩ ⟨2026, 7, 14, 8, 0, 0, 0⟩
        "git status" "rtk git status" 100 20 50 "/projects/foo" =
      Tracker.cleanup_old ⟨2026, 7, 14, 8, 0, 0, 0⟩
        ([] ++ [Tracker.recordRow ⟨2026, 10, 12, 8, 0, 0, 0⟩ "git status"
          "rtk git status" 100 20 50 "/projects/foo"]) :=
  record_retention_bound [] ⟨2026, 10, 12, 8, 0, 0, 0⟩ ⟨2026, 7, 14, 8, 0, 0, 0⟩
    "git status" "rtk git status" 100 20 50 "/projects/foo" (by decide)

/-- C6 (amended): for instants of the four-digit-year era (years 0–9999,
which covers every timestamp this program writes), `t1` is chronologically
before `t2` — mixed-radix key order on the calendar fields — if and only if
the stored RFC3339 encoding of `t1` compares below that of `t2` in SQLite's
plain-text order; beyond year 9999 the encoder's explicit sign prefix breaks
the correspondence. -/
theorem rfc3339_text_order_chronological (t1 t2 : Instant)
    (h1 : t1.Valid) (h2 : t2.Valid) :
    instantKey t1 < instantKey t2 ↔
      textLt (encodeRfc3339 t1) (encodeRfc3339 t2) = true :=
  (encode_textLt_iff h1 h2).symm

/-- C6 witness: two concrete instants a day apart, one with fractional
seconds. -/
theorem rfc3339_text_order_chronological_witness :
    instantKey ⟨2026, 5, 1, 12, 0, 0, 0⟩ < instantKey ⟨2026, 5, 2, 9, 30, 0, 500000000⟩ ↔
      textLt (encodeRfc3339 ⟨2026, 5, 1, 12, 0, 0, 0⟩)
        (encodeRfc3339 ⟨2026, 5, 2, 9, 30, 0, 500000000⟩) = true :=
  rfc3339_text_order_chronological ⟨2026, 5, 1, 12, 0, 0, 0⟩
    ⟨2026, 5, 2, 9, 30, 0, 500000000⟩ (by decide) (by decide)

/-- C6 counterexample: the claim over *all* instants fails at the five-digit
year boundary: year 10000 is chronologically after 2026, but its encoding
"+10000-01-01…" sorts lexically *before* "2026-10-12…" because the sign
character precedes every digit. -/
theorem rfc3339_text_order_year10000_cex :
    instantKey ⟨2026, 10, 12, 7, 3, 5, 0⟩ < instantKey ⟨10000, 1, 1, 0, 0, 0, 0⟩ ∧
    textLt (encodeRfc3339 ⟨2026, 10, 12, 7, 3, 5, 0⟩)
      (encodeRfc3339 ⟨10000, 1, 1, 0, 0, 0, 0⟩) = false := by
  constructor
  · decide
  · decide

/-! ### C7: bucket statistics from bucket sums -/

/-- The spec's shared numeric rule (§4.4): a bucket's savings percentage is
computed from the bucket's summed tokens — `100·Σsaved/Σinput`, and `0`
when the summed input is zero — never an average of per-row percentages. -/
def specBucketPct (bucket : List Row) : Rat :=
  let input : Nat := (bucket.map (·.input_tokens)).sum
  let saved : Nat := (bucket.map (·.saved_tokens)).sum
  if input > 0 then 100 * (saved : Rat) / (input : Rat) else 0

/-- The spec's shared numeric rule for time: summed execution time divided
by the record count, `0` for an empty bucket. -/
def specBucketAvgTime (bucket : List Row) : Nat :=
  if bucket.length > 0 then (bucket.map (·.exec_time_ms)).sum / bucket.length else 0

theorem mkDayStats_fields (k : List Char) (bucket : List Row) :
    (mkDayStats k bucket).savings_pct = specBucketPct bucket ∧
    (mkDayStats k bucket).avg_time_ms = specBucketAvgTime bucket ∧
    (mkDayStats k bucket).date = k := by
  dsimp only [mkDayStats, specBucketPct, specBucketAvgTime]
  refine ⟨?_, rfl, rfl⟩
  by_cases h : (bucket.map (·.input_tokens)).sum > 0
  · rw [if_pos h, if_pos h]
    ring
  · rw [if_neg h, if_neg h]

theorem mkWeekStats_fields (ws we : List Char) (bucket : List Row) :
    (mkWeekStats ws we bucket).savings_pct = specBucketPct bucket ∧
    (mkWeekStats ws we bucket).avg_time_ms = specBucketAvgTime bucket ∧
    (mkWeekStats ws we bucket).week_start = ws := by
  dsimp only [ mkWeekStats, specBucketPct, specBucketAvgTime]
  refine ⟨?_, rfl, rfl⟩
  by_cases h : (bucket.map (·.input_tokens)).sum > 0
  · rw [if_pos h, if_pos h]
    ring
  · rw [if_neg h, if_neg h]

theorem mkMonthStats_fields (k : List Char) (bucket : List Row) :
    (mkMonthStats k bucket).savings_pct = specBucketPct bucket ∧
    (mkMonthStats k bucket).avg_time_ms = specBucketAvgTime bucket ∧
    (mkMonthStats k bucket).month = k := by
  dsimp only [ mkMonthStats, specBucketPct, specBucketAvgTime]
  refine ⟨?_, rfl, rfl⟩
  by_cases h : (bucket.map (·.input_tokens)).sum > 0
  · rw [if_pos h, if_pos h]
    ring
  · rw [if_neg h, if_neg h]

theorem summarize_spec (rows : List Row) :
    summarize rows = (rows.length, (rows.map (·.input_tokens)).sum,
      (rows.map (·.output_tokens)).sum, (rows.map (·.saved_tokens)).sum,
      (rows.map (·.exec_time_ms)).sum) := by
  induction rows with
  | nil => rfl
  | cons r rs ih => simp [summarize, ih, Nat.add_comm]

/-- C7: every aggregate and every day/week/month bucket computes its savings
percentage from the bucket's summed tokens (`100·Σsaved/Σinput`, `0` when
the summed input is zero — never a division by zero and never an average of
per-row percentages) and its average execution time as the summed time
divided by the record count (`0` for zero records); the overall summary
applies the same rule to all scoped rows. -/
theorem bucket_stats_from_sums (scope : QueryScope) (db : List Row)
    (weekStart weekEnd : List Char → List Char) :
    (∀ st ∈ Tracker.get_all_days scope db,
      st.savings_pct = specBucketPct (bucketRows dayKey (scopedRows scope db) st.date) ∧
      st.avg_time_ms = specBucketAvgTime (bucketRows dayKey (scopedRows scope db) st.date)) ∧
    (∀ st ∈ Tracker.get_by_week weekStart weekEnd scope db,
      st.savings_pct = specBucketPct
        (bucketRows (fun r => weekStart r.timestamp) (scopedRows scope db) st.week_start) ∧
      st.avg_time_ms = specBucketAvgTime
        (bucketRows (fun r => weekStart r.timestamp) (scopedRows scope db) st.week_start)) ∧
    (∀ st ∈ Tracker.get_by_month scope db,
      st.savings_pct = specBucketPct (bucketRows monthKey (scopedRows scope db) st.month) ∧
      st.avg_time_ms = specBucketAvgTime (bucketRows monthKey (scopedRows scope db) st.month)) ∧
    ((Tracker.get_summary scope db).avg_savings_pct = specBucketPct (scopedRows scope db) ∧
      (Tracker.get_summary scope db).avg_time_ms = specBucketAvgTime (scopedRows scope db)) := by
  refine ⟨?_, ?_, ?_, ?_⟩
  · intro st hst
    unfold Tracker.get_all_days at hst
    rw [List.mem_reverse, List.mem_map] at hst
    obtain ⟨k, hk, rfl⟩ := hst
    have hf := mkDayStats_fields k (bucketRows dayKey (scopedRows scope db) k)
    rw [hf.2.2]
    exact ⟨hf.1, hf.2.1⟩
  · intro st hst
    unfold Tracker.get_by_week at hst
    rw [List.mem_reverse, List.mem_map] at hst
    obtain ⟨k, hk, rfl⟩ := hst
    have hf := mkWeekStats_fields k
      (((bucketRows (fun r => weekStart r.timestamp) (scopedRows scope db) k).head?.map
        (fun r => weekEnd r.timestamp)).getD [])
      (bucketRows (fun r => weekStart r.timestamp) (scopedRows scope db) k)
    rw [hf.2.2]
    exact ⟨hf.1, hf.2.1⟩
  · intro st hst
    unfold Tracker.get_by_month at hst
    rw [List.mem_reverse, List.mem_map] at hst
    obtain ⟨k, hk, rfl⟩ := hst
    have hf := mkMonthStats_fields k (bucketRows monthKey (scopedRows scope db) k)
    rw [hf.2.2]
    exact ⟨hf.1, hf.2.1⟩
  · dsimp only [Tracker.get_summary, specBucketPct, specBucketAvgTime]
    rw [summarize_spec]
    dsimp only
    constructor
    · by_cases h : ((scopedRows scope db).map (·.input_tokens)).sum > 0
      · rw [if_pos h, if_pos h]
        ring
      · rw [if_neg h, if_neg h]
    · rfl

/-! ### C8: ordering of the bucketed queries -/

/-- The fetched bucket keys are strictly descending in SQLite TEXT order. -/
theorem bucketKeysDesc_strict (keyOf : Row → List Char) (rows : List Row) :
    (bucketKeysDesc keyOf rows).Pairwise (fun a b => lexCmp b a = .lt) := by
  have hsort : List.Sorted keyGe (bucketKeysDesc keyOf rows) :=
    List.sorted_insertionSort keyGe _
  have hnodup : (bucketKeysDesc keyOf rows).Nodup :=
    ((List.perm_insertionSort keyGe _).nodup_iff).mpr (List.nodup_dedup _)
  refine (hsort.and hnodup).imp ?_
  rintro a b ⟨hge, hne⟩
  rcases h : lexCmp a b with _ | _ | _
  · exact absurd h hge
  · exact absurd ((lexCmp_eq_iff a b).mp h) hne
  · exact (lexCmp_gt_iff_lt a b).mp h

theorem mem_bucketKeysDesc {keyOf : Row → List Char} {rows : List Row}
    {k : List Char} : k ∈ bucketKeysDesc keyOf rows ↔ k ∈ rows.map keyOf := by
  unfold bucketKeysDesc
  rw [(List.perm_insertionSort keyGe _).mem_iff, List.mem_dedup]

theorem get_all_days_dates (scope : QueryScope) (db : List Row) :
    (Tracker.get_all_days scope db).map (·.date) =
      (bucketKeysDesc dayKey (scopedRows scope db)).reverse := by
  unfold Tracker.get_all_days
  rw [List.map_reverse, List.map_map]
  congr 1
  exact List.map_id _

theorem get_by_week_starts (weekStart weekEnd : List Char → List Char)
    (scope : QueryScope) (db : List Row) :
    (Tracker.get_by_week weekStart weekEnd scope db).map (·.week_start) =
      (bucketKeysDesc (fun r => weekStart r.timestamp) (scopedRows scope db)).reverse := by
  unfold Tracker.get_by_week
  rw [List.map_reverse, List.map_map]
  congr 1
  exact List.map_id _

theorem get_by_month_months (scope : QueryScope) (db : List Row) :
    (Tracker.get_by_month scope db).map (·.month) =
      (bucketKeysDesc monthKey (scopedRows scope db)).reverse := by
  unfold Tracker.get_by_month
  rw [List.map_reverse, List.map_map]
  congr 1
  exact List.map_id _

theorem get_by_day_keys (scope : QueryScope) (db : List Row) :
    (Tracker.get_by_day scope db).map (·.1) =
      ((bucketKeysDesc dayKey (scopedRows scope db)).take 30).reverse := by
  unfold Tracker.get_by_day
  rw [List.map_reverse, List.map_map]
  congr 1
  exact List.map_id _

/-- The calendar-date prefix of the encoding (`YYYY-MM-DD`). -/
def dateChars (t : Instant) : List Char :=
  padDigits 4 t.year ++ '-' :: (padDigits 2 t.month ++ '-' :: padDigits 2 t.day)

/-- Numeric reading `YYYYMMDD` of a date: chronological order of calendar
days. -/
def dateNum (t : Instant) : Nat := t.year * 10000 + (t.month * 100 + t.day)

/-- The year-month prefix of the encoding (`YYYY-MM`). -/
def monthChars (t : Instant) : List Char :=
  padDigits 4 t.year ++ '-' :: padDigits 2 t.month

/-- Numeric reading `YYYYMM` of a month bucket. -/
def monthNum (t : Instant) : Nat := t.year * 100 + t.month

theorem encode_split_date (t : Instant) (hy : t.year ≤ 9999) :
    encodeRfc3339 t = dateChars t ++ 'T' :: encTail3 t := by
  unfold encodeRfc3339 encTail1 encTail2 dateChars yearChars
  rw [if_pos (by omega : t.year < 10000)]
  simp [List.append_assoc, List.cons_append]

theorem encode_take10 (t : Instant) (hy : t.year ≤ 9999) :
    (encodeRfc3339 t).take 10 = dateChars t := by
  rw [encode_split_date t hy, List.take_left']
  unfold dateChars
  simp [padDigits_length]

theorem encode_split_month (t : Instant) (hy : t.year ≤ 9999) :
    encodeRfc3339 t = monthChars t ++ '-' :: (padDigits 2 t.day ++ 'T' :: encTail3 t) := by
  unfold encodeRfc3339 encTail1 encTail2 monthChars yearChars
  rw [if_pos (by omega : t.year < 10000)]
  simp [List.append_assoc, List.cons_append]

theorem encode_take7 (t : Instant) (hy : t.year ≤ 9999) :
    (encodeRfc3339 t).take 7 = monthChars t := by
  rw [encode_split_month t hy, List.take_left']
  unfold monthChars
  simp [padDigits_length]

theorem dateChars_cmp {t1 t2 : Instant}
    (hy1 : t1.year ≤ 9999) (hmo1 : t1.month ≤ 12) (hd1 : t1.day ≤ 31)
    (hy2 : t2.year ≤ 9999) (hmo2 : t2.month ≤ 12) (hd2 : t2.day ≤ 31) :
    (lexCmp (dateChars t1) (dateChars t2) = .lt ↔ dateNum t1 < dateNum t2) ∧
    (lexCmp (dateChars t1) (dateChars t2) = .eq ↔ dateNum t1 = dateNum t2) := by
  unfold dateChars
  rw [lexCmp_append_congr _ _ (by rw [padDigits_length, padDigits_length]),
    lexCmp_cons_same,
    lexCmp_append_congr _ _ (by rw [padDigits_length, padDigits_length]),
    lexCmp_cons_same]
  have h4 : (10 : Nat) ^ 4 = 10000 := by norm_num
  have hyr := padDigits_cmp 4 t1.year (by omega) t2.year (by omega)
  have hmo := pad2_cmp_of_le (by omega : t1.month ≤ 99) (by omega : t2.month ≤ 99)
  have hdy := pad2_cmp_of_le (by omega : t1.day ≤ 99) (by omega : t2.day ≤ 99)
  have hinner := then_key (M := 100) hmo.1 hmo.2 hdy.1 hdy.2 (by omega) (by omega)
  exact then_key (M := 10000) hyr.1 hyr.2 hinner.1 hinner.2 (by omega) (by omega)

theorem monthChars_cmp {t1 t2 : Instant}
    (hy1 : t1.year ≤ 9999) (hmo1 : t1.month ≤ 12)
    (hy2 : t2.year ≤ 9999) (hmo2 : t2.month ≤ 12) :
    (lexCmp (monthChars t1) (monthChars t2) = .lt ↔ monthNum t1 < monthNum t2) ∧
    (lexCmp (monthChars t1) (monthChars t2) = .eq ↔ monthNum t1 = monthNum t2) := by
  unfold monthChars
  rw [lexCmp_append_congr _ _ (by rw [padDigits_length, padDigits_length]),
    lexCmp_cons_same]
  have h4 : (10 : Nat) ^ 4 = 10000 := by norm_num
  have hyr := padDigits_cmp 4 t1.year (by omega) t2.year (by omega)
  have hmo := pad2_cmp_of_le (by omega : t1.month ≤ 99) (by omega : t2.month ≤ 99)
  exact then_key (M := 100) hyr.1 hyr.2 hmo.1 hmo.2 (by omega) (by omega)

/-- Two strings are day keys in strictly increasing chronological order:
each renders a valid calendar date and the first denotes the earlier day. -/
def dateStrLt (s1 s2 : List Char) : Prop :=
  ∃ t1 t2 : Instant, t1.Valid ∧ t2.Valid ∧ s1 = dateChars t1 ∧ s2 = dateChars t2 ∧
    dateNum t1 < dateNum t2

/-- Two strings are month keys in strictly increasing chronological order. -/
def monthStrLt (s1 s2 : List Char) : Prop :=
  ∃ t1 t2 : Instant, t1.Valid ∧ t2.Valid ∧ s1 = monthChars t1 ∧ s2 = monthChars t2 ∧
    monthNum t1 < monthNum t2

/-- Every row's stored timestamp is the encoding of some valid instant —
true of every row the store ever writes. -/
def ValidTimestamps (db : List Row) : Prop :=
  ∀ r ∈ db, ∃ t : Instant, t.Valid ∧ r.timestamp = encodeRfc3339 t

theorem scopedRows_subset {scope : QueryScope} {db : List Row} {r : Row}
    (h : r ∈ scopedRows scope db) : r ∈ db := by
  cases scope with
  | Project dir => exact (List.mem_filter.mp h).1
  | Global => exact h

theorem dayKey_renders {scope : QueryScope} {db : List Row}
    (hdb : ValidTimestamps db) {k : List Char}
    (hk : k ∈ (scopedRows scope db).map dayKey) :
    ∃ t : Instant, t.Valid ∧ k = dateChars t := by
  rw [List.mem_map] at hk
  obtain ⟨r, hr, rfl⟩ := hk
  obtain ⟨t, ht, hts⟩ := hdb r (scopedRows_subset hr)
  exact ⟨t, ht, by rw [dayKey, hts, encode_take10 t ht.1]⟩

theorem monthKey_renders {scope : QueryScope} {db : List Row}
    (hdb : ValidTimestamps db) {k : List Char}
    (hk : k ∈ (scopedRows scope db).map monthKey) :
    ∃ t : Instant, t.Valid ∧ k = monthChars t := by
  rw [List.mem_map] at hk
  obtain ⟨r, hr, rfl⟩ := hk
  obtain ⟨t, ht, hts⟩ := hdb r (scopedRows_subset hr)
  exact ⟨t, ht, by rw [monthKey, hts, encode_take7 t ht.1]⟩

theorem pairwise_dateStrLt_of_desc {keys : List (List Char)}
    (hdesc : keys.Pairwise (fun a b => lexCmp b a = .lt))
    (hrender : ∀ k ∈ keys, ∃ t : Instant, t.Valid ∧ k = dateChars t) :
    keys.reverse.Pairwise dateStrLt := by
  rw [List.pairwise_reverse]
  refine List.Pairwise.imp_of_mem ?_ hdesc
  intro a b ha hb hlt
  obtain ⟨ta, hva, rfl⟩ := hrender a ha
  obtain ⟨tb, hvb, rfl⟩ := hrender b hb
  refine ⟨tb, ta, hvb, hva, rfl, rfl, ?_⟩
  exact (dateChars_cmp hvb.1 hvb.2.2.1 hvb.2.2.2.2.1
    hva.1 hva.2.2.1 hva.2.2.2.2.1).1.mp hlt

theorem pairwise_monthStrLt_of_desc {keys : List (List Char)}
    (hdesc : keys.Pairwise (fun a b => lexCmp b a = .lt))
    (hrender : ∀ k ∈ keys, ∃ t : Instant, t.Valid ∧ k = monthChars t) :
    keys.reverse.Pairwise monthStrLt := by
  rw [List.pairwise_reverse]
  refine List.Pairwise.imp_of_mem ?_ hdesc
  intro a b ha hb hlt
  obtain ⟨ta, hva, rfl⟩ := hrender a ha
  obtain ⟨tb, hvb, rfl⟩ := hrender b hb
  refine ⟨tb, ta, hvb, hva, rfl, rfl, ?_⟩
  exact (monthChars_cmp hvb.1 hvb.2.2.1 hva.1 hva.2.2.1).1.mp hlt

/-- C8: for every scope, `get_all_days`, `get_by_week` and `get_by_month`
return their buckets in strictly ascending chronological order (on a store
whose timestamps are valid encodings, and for week keys that are calendar
dates, as SQLite's date functions produce); `get_by_day` returns at most 30
buckets, ascending, and they are precisely the most recent ones: every day
key of the scoped rows that is not returned sorts strictly below every
returned key. -/
theorem bucket_query_ordering (scope : QueryScope) (db : List Row)
    (weekStart weekEnd : List Char → List Char)
    (hdb : ValidTimestamps db)
    (hws : ∀ s, ∃ t : Instant, t.Valid ∧ weekStart s = dateChars t) :
    ((Tracker.get_all_days scope db).map (·.date)).Pairwise dateStrLt ∧
    ((Tracker.get_by_week weekStart weekEnd scope db).map (·.week_start)).Pairwise dateStrLt ∧
    ((Tracker.get_by_month scope db).map (·.month)).Pairwise monthStrLt ∧
    (Tracker.get_by_day scope db).length ≤ 30 ∧
    ((Tracker.get_by_day scope db).map (·.1)).Pairwise dateStrLt ∧
    (∀ k ∈ (scopedRows scope db).map dayKey,
      k ∉ (Tracker.get_by_day scope db).map (·.1) →
      ∀ k' ∈ (Tracker.get_by_day scope db).map (·.1), lexCmp k k' = .lt) := by
  refine ⟨?_, ?_, ?_, ?_, ?_, ?_⟩
  · rw [get_all_days_dates]
    exact pairwise_dateStrLt_of_desc (bucketKeysDesc_strict _ _)
      (fun k hk => dayKey_renders hdb (mem_bucketKeysDesc.mp hk))
  · rw [get_by_week_starts]
    refine pairwise_dateStrLt_of_desc (bucketKeysDesc_strict _ _) ?_
    intro k hk
    have := mem_bucketKeysDesc.mp hk
    rw [List.mem_map] at this
    obtain ⟨r, -, rfl⟩ := this
    exact hws r.timestamp
  · rw [get_by_month_months]
    exact pairwise_monthStrLt_of_desc (bucketKeysDesc_strict _ _)
      (fun k hk => monthKey_renders hdb (mem_bucketKeysDesc.mp hk))
  · have : (Tracker.get_by_day scope db).length =
        (((bucketKeysDesc dayKey (scopedRows scope db)).take 30).reverse).length := by
      have h := get_by_day_keys scope db
      calc (Tracker.get_by_day scope db).length
          = ((Tracker.get_by_day scope db).map (·.1)).length := (List.length_map _ _).symm
        _ = _ := by rw [h]
    rw [this, List.length_reverse, List.length_take]
    omega
  · rw [get_by_day_keys]
    refine pairwise_dateStrLt_of_desc
      (List.Pairwise.sublist (List.take_sublist 30 _) (bucketKeysDesc_strict _ _)) ?_
    intro k hk
    exact dayKey_renders hdb (mem_bucketKeysDesc.mp (List.mem_of_mem_take hk))
  · intro k hk hnot k' hk'
    rw [get_by_day_keys, List.mem_reverse] at hnot hk'
    have hkin : k ∈ bucketKeysDesc dayKey (scopedRows scope db) :=
      mem_bucketKeysDesc.mpr hk
    have hdesc := bucketKeysDesc_strict dayKey (scopedRows scope db)
    have hsplit := List.take_append_drop 30 (bucketKeysDesc dayKey (scopedRows scope db))
    rw [← hsplit] at hdesc hkin
    have happ := (List.pairwise_append.mp hdesc).2.2
    rw [List.mem_append] at hkin
    rcases hkin with h | h
    · exact absurd h hnot
    · exact happ k' hk' k h

/-- A concrete valid instant used by witnesses. -/
def sampleInstant : Instant := ⟨2026, 10, 12, 7, 0, 0, 0⟩

/-- A concrete row stamped with `sampleInstant`'s encoding. -/
def sampleRow : Row :=
  { timestamp := encodeRfc3339 sampleInstant
    original_cmd := "ls"
    rtk_cmd := "rtk ls"
    input_tokens := 100
    output_tokens := 20
    saved_tokens := 80
    savings_pct := 80
    exec_time_ms := 5
    working_dir := "/p" }

/-- C8 witness: the ordering theorem applied to a concrete one-row store and
a concrete (constant, valid-date-valued) week-key function. -/
theorem bucket_query_ordering_witness :
    ((Tracker.get_all_days .Global [sampleRow]).map (·.date)).Pairwise dateStrLt ∧
    ((Tracker.get_by_week (fun _ => dateChars sampleInstant) (fun _ => [])
      .Global [sampleRow]).map (·.week_start)).Pairwise dateStrLt ∧
    ((Tracker.get_by_month .Global [sampleRow]).map (·.month)).Pairwise monthStrLt ∧
    (Tracker.get_by_day .Global [sampleRow]).length ≤ 30 ∧
    ((Tracker.get_by_day .Global [sampleRow]).map (·.1)).Pairwise dateStrLt ∧
    (∀ k ∈ (scopedRows .Global [sampleRow]).map dayKey,
      k ∉ (Tracker.get_by_day .Global [sampleRow]).map (·.1) →
      ∀ k' ∈ (Tracker.get_by_day .Global [sampleRow]).map (·.1), lexCmp k k' = .lt) :=
  bucket_query_ordering .Global [sampleRow] (fun _ => dateChars sampleInstant) (fun _ => [])
    (by
      intro r hr
      rw [List.mem_singleton] at hr
      subst hr
      exact ⟨sampleInstant, by decide, rfl⟩)
    (fun _ => ⟨sampleInstant, by decide, rfl⟩)

end Rtk
